import Mathlib

/-! The wire codec and the replication core of dendrite.

A shallow embedding of `transport_zmq.go` (the message envelope: `Encode`,
`Decode`; the client call `ListVnodes`) and of
`dtable/dtable_replication.go` (`Delegate`, `promote`, `demote`,
`replicateKey` and the two converters), with the properties of the design
document proved over it.

Conventions of the embedding.

* A `[]byte` is a `List Byte`; a nil slice and an empty slice are both `[]`.
* A Go `map[string]T` is an association list with distinct keys (`GoMap T`);
  the order of the list is the order in which `range` yields the entries, so a
  statement over all maps is a statement over all iteration orders.
* Pointers to `Vnode`, `value` and `rvalue` are never nil and are modelled by
  the values they point to; where the source relies on two names for one
  object (`new_val` in `promote`) the embedding writes the update through.
  Two entries of the tables never share an object or the array of a chain,
  and two vnode strings never name one map unless they are equal.
* A run of `promote` or `demote` is the only writer of the tables while it
  lasts, and each RPC is waited for before the next statement, as in the
  source (`<-done_c`).
* A run-time panic (write to a nil map, index out of range, type assertion)
  is the result `none`.
* The goroutine of `ListVnodes` and the timer race in a `select`; which of
  them the `select` takes is a parameter of the call.
* Everything outside the two files (the ring, the transport, the RPC senders,
  the clock, the protobuf library) is a parameter. Its answers may depend on
  everything that was asked before: each oracle receives the trace of the
  calls made so far.
-/

namespace Dendrite

/-! ## Wire codec (`transport_zmq.go`) -/

/-- A Go `byte`. -/
abbrev Byte := Fin 256

/-- The type `MsgType`: the one-byte tag of the envelope. -/
abbrev MsgType := Byte

def pbPing : MsgType := 0
def pbAck : MsgType := 1
def pbErr : MsgType := 2
def pbForward : MsgType := 3
def pbJoin : MsgType := 4
def pbLeave : MsgType := 5
def pbListVnodes : MsgType := 6
def pbListVnodesResp : MsgType := 7

/-- The protobuf layer, which is outside the two files: the generated message
types of `pb_defs`, `proto.Unmarshal` at each of them (an error is a string),
and the getters `ListVnodes` reads. -/
structure PBDefs where
  PBProtoPing : Type
  PBProtoErr : Type
  PBProtoJoin : Type
  PBProtoLeave : Type
  PBProtoListVnodes : Type
  PBProtoListVnodesResp : Type
  PBProtoVnode : Type
  UnmarshalPing : List Byte → Except String PBProtoPing
  UnmarshalErr : List Byte → Except String PBProtoErr
  UnmarshalJoin : List Byte → Except String PBProtoJoin
  UnmarshalLeave : List Byte → Except String PBProtoLeave
  UnmarshalListVnodes : List Byte → Except String PBProtoListVnodes
  UnmarshalListVnodesResp : List Byte → Except String PBProtoListVnodesResp
  GetError : PBProtoErr → String
  GetVnodes : PBProtoListVnodesResp → List PBProtoVnode
  GetId : PBProtoVnode → List Byte
  GetHost : PBProtoVnode → String

/-- The fields of `ZMQTransport` the two files read. -/
structure ZMQTransport where
  clientTimeout : Nat
deriving DecidableEq, Repr

/-- The handler methods of the transport that `Decode` binds. -/
inductive HandlerMethod where
  | zmq_ping_handler
  | zmq_error_handler
  | zmq_join_handler
  | zmq_leave_handler
  | zmq_listVnodes_handler
deriving DecidableEq, Repr

/-- A method value such as `transport.zmq_ping_handler`: the method and the
receiver it is bound to. -/
structure BoundHandler where
  receiver : ZMQTransport
  method : HandlerMethod
deriving DecidableEq, Repr

/-- The dynamic content of `ChordMsg.TransportMsg` (an `interface{}`): one of
the decoded protobuf messages. -/
inductive TransportMsg (pb : PBDefs) where
  | ping (m : pb.PBProtoPing)
  | err (m : pb.PBProtoErr)
  | join (m : pb.PBProtoJoin)
  | leave (m : pb.PBProtoLeave)
  | listVnodes (m : pb.PBProtoListVnodes)
  | listVnodesResp (m : pb.PBProtoListVnodesResp)

/-- The envelope `ChordMsg`. The field `Type` of the source is `Typ` here. -/
structure ChordMsg (pb : PBDefs) where
  Typ : MsgType
  Data : List Byte
  TransportMsg : Option (TransportMsg pb)
  TransportHandler : Option BoundHandler

/-- The errors `Decode` builds with `fmt.Errorf`. -/
inductive DecodeError where
  /-- The text is "data too short: %d". -/
  | dataTooShort (len : Nat)
  /-- The text is "error decoding <name> message - %s". -/
  | decodingMessage (name : String) (cause : String)
  /-- The text is "error decoding message - unknown request type %x". -/
  | unknownRequestType (t : MsgType)
deriving DecidableEq, Repr

/-- The method `ZMQTransport.Encode`: the tag byte, then the payload. -/
def Encode (_transport : ZMQTransport) (mt : MsgType) (data : List Byte) : List Byte :=
  [mt] ++ data

/-- The method `ZMQTransport.Decode`. -/
def Decode (pb : PBDefs) (transport : ZMQTransport) (data : List Byte) :
    Except DecodeError (ChordMsg pb) :=
  match data with
  | [] => .error (.dataTooShort ([] : List Byte).length)
  | d0 :: tl =>
    let cmType : MsgType := d0
    -- cm.Data stays nil unless there is more than the tag
    let cmData : List Byte := if (d0 :: tl).length > 1 then tl else []
    if cmType = pbPing then
      match pb.UnmarshalPing cmData with
      | .error e => .error (.decodingMessage "PBProtoPing" e)
      | .ok pingMsg =>
        .ok ⟨cmType, cmData, some (.ping pingMsg), some ⟨transport, .zmq_ping_handler⟩⟩
    else if cmType = pbErr then
      match pb.UnmarshalErr cmData with
      | .error e => .error (.decodingMessage "PBProtoErr" e)
      | .ok errorMsg =>
        .ok ⟨cmType, cmData, some (.err errorMsg), some ⟨transport, .zmq_error_handler⟩⟩
    else if cmType = pbJoin then
      match pb.UnmarshalJoin cmData with
      | .error e => .error (.decodingMessage "PBProtoJoin" e)
      | .ok joinMsg =>
        .ok ⟨cmType, cmData, some (.join joinMsg), some ⟨transport, .zmq_join_handler⟩⟩
    else if cmType = pbLeave then
      match pb.UnmarshalLeave cmData with
      | .error e => .error (.decodingMessage "PBProtoLeave" e)
      | .ok leaveMsg =>
        .ok ⟨cmType, cmData, some (.leave leaveMsg), some ⟨transport, .zmq_leave_handler⟩⟩
    else if cmType = pbListVnodes then
      match pb.UnmarshalListVnodes cmData with
      | .error e => .error (.decodingMessage "PBProtoListVnodes" e)
      | .ok listVnodesMsg =>
        .ok ⟨cmType, cmData, some (.listVnodes listVnodesMsg),
          some ⟨transport, .zmq_listVnodes_handler⟩⟩
    else if cmType = pbListVnodesResp then
      match pb.UnmarshalListVnodesResp cmData with
      | .error e => .error (.decodingMessage "PBProtoListVnodesResp" e)
      | .ok listVnodesRespMsg =>
        .ok ⟨cmType, cmData, some (.listVnodesResp listVnodesRespMsg), none⟩
    else
      .error (.unknownRequestType cmType)

/-! ## Data model of the table (`dtable`) -/

/-- The ring's `Vnode`: an identifier and a host address. -/
structure Vnode where
  Id : List Byte
  Host : String
deriving DecidableEq, Repr

/-- One lower-case hexadecimal digit. -/
def hexDigit (n : Nat) : Char :=
  if n < 10 then Char.ofNat (48 + n) else Char.ofNat (87 + n)

/-- Modelled from the spec: `Vnode.String` is declared outside the two files;
it is the vnode-id string by which the per-vnode tables are indexed, here the
identifier in hexadecimal, two digits a byte. -/
def Vnode.String (vn : Vnode) : String :=
  String.mk (vn.Id.flatMap fun b => [hexDigit (b.val / 16), hexDigit (b.val % 16)])

/-- The two values of `replicaState` the files use. -/
inductive replicaState where
  | replicaComplete
  | replicaIncomplete
deriving DecidableEq, Repr

/-- A `time.Time`; the zero time is `0`. -/
abbrev Time := Nat

/-- The struct `value`, an entry of a primary table, with the fields the two
files read or write. -/
structure value where
  Val : List Byte
  timestamp : Time
  isReplica : Bool
  commited : Bool
  rstate : replicaState
  clean_key : List Byte
  replicaVnodes : List Vnode
deriving DecidableEq, Repr

/-- The struct `rvalue`, an entry of a replica store. -/
structure rvalue where
  Val : List Byte
  timestamp : Time
  depth : Int
  state : replicaState
  master : Vnode
  replicaVnodes : List Vnode
deriving DecidableEq, Repr

/-- The struct `demotedItem`, an entry of a demoted-item store. -/
structure demotedItem where
  val : List Byte
  clean_key : List Byte
  timestamp : Time
  new_master : Vnode
  replicaVnodes : List Vnode
  demoted_ts : Time
deriving DecidableEq, Repr

/-- A Go `map[string]T`: distinct keys, and the entries in the order `range`
yields them. -/
abbrev GoMap (α : Type) := AList (fun _ : String => α)

/-- The read `m[o][k]` of a map of maps; a missing or nil inner map reads as
absent. -/
def getIn {α : Type} (m : GoMap (GoMap α)) (o k : String) : Option α :=
  (m.lookup o).bind fun inner => inner.lookup k

/-- The write `m[o][k] = v`: a panic (`none`) when `m[o]` is nil. -/
def setIn {α : Type} (m : GoMap (GoMap α)) (o k : String) (v : α) :
    Option (GoMap (GoMap α)) :=
  match m.lookup o with
  | none => none
  | some inner => some (m.insert o (inner.insert k v))

/-- The statement `delete(m[o], k)`: nothing happens when `m[o]` is nil. -/
def deleteIn {α : Type} (m : GoMap (GoMap α)) (o k : String) : GoMap (GoMap α) :=
  match m.lookup o with
  | none => m
  | some inner => m.insert o (inner.erase k)

/-- The entries `range m[o]` walks: none for a nil map. -/
def rangeOf {α : Type} (m : GoMap (GoMap α)) (o : String) : List (String × α) :=
  match m.lookup o with
  | none => []
  | some inner => inner.entries.map fun e => (e.1, e.2)

/-- The three tables of `DTable`, each indexed by `Vnode.String`. -/
structure DTable where
  table : GoMap (GoMap value)
  rtable : GoMap (GoMap rvalue)
  demoted_table : GoMap (GoMap demotedItem)
deriving DecidableEq

/-! ## The collaborators -/

/-- A call that leaves the process or asks the ring, as it is recorded in the
trace. -/
inductive Event where
  /-- The call `dt.ring.Lookup(n, key)`. -/
  | Lookup (n : Int) (key : List Byte)
  /-- The call `handler.FindRemoteSuccessors(limit)` on the handler of `vnode`. -/
  | FindRemoteSuccessors (vnode : Vnode) (limit : Int)
  /-- The call `dt.remoteSet(origin, target, key, val, replicas, demoting, done_c)`. -/
  | remoteSet (origin target : Vnode) (key : List Byte) (val : value) (replicas : Int)
      (demoting : Bool)
  /-- The call `dt.remoteSetMeta(target, key, rval)`. -/
  | remoteSetMeta (target : Vnode) (key : List Byte) (rval : rvalue)
deriving DecidableEq, Repr

/-- The calls made so far, oldest first. -/
abbrev Trace := List Event

/-- What `GetVnodeHandler` returns for a local vnode: the files call one
method of it. -/
structure VnodeHandler where
  FindRemoteSuccessors : Trace → Int → Except String (List Vnode)

/-- The ring, the transport, the RPC senders and the clock. An answer may
depend on the trace of the calls made before it. For the two senders `none`
is a nil error and `some e` the error `e`. -/
structure World where
  KeyFromString : String → List Byte
  Between : List Byte → List Byte → List Byte → Bool → Bool
  Replicas : Int
  MyVnodes : Trace → List Vnode
  Lookup : Trace → Int → List Byte → Except String (List Vnode)
  GetVnodeHandler : Trace → Vnode → Option VnodeHandler × Bool
  remoteSet : Trace → Vnode → Vnode → List Byte → value → Int → Bool → Option String
  remoteSetMeta : Trace → Vnode → List Byte → rvalue → Option String
  Now : Trace → Time

/-! ## `dtable_replication.go` -/

/-- The function `rvalue2value`. -/
def rvalue2value (rval : rvalue) : value :=
  { Val := rval.Val
    timestamp := rval.timestamp
    isReplica := false
    commited := false
    rstate := .replicaIncomplete
    clean_key := []
    replicaVnodes := [] }

/-- The function `value2demotedItem`; `now` is the reading of `time.Now()`. -/
def value2demotedItem (val : value) (new_master : Vnode) (now : Time) : demotedItem :=
  { val := val.Val
    clean_key := val.clean_key
    timestamp := val.timestamp
    new_master := new_master
    replicaVnodes := val.replicaVnodes
    demoted_ts := now }

/-- The replica copy `nval` that `replicateKey` sends. -/
def replicaCopy (val : value) : value :=
  { Val := val.Val
    timestamp := val.timestamp
    rstate := .replicaIncomplete
    isReplica := true
    commited := false
    clean_key := []
    replicaVnodes := [] }

/-- The first loop of `replicateKey`, over the successors still to write, with
`item_replicas` as built so far: `none` when a `remoteSet` failed and the
function returned. -/
def writeReplicas (w : World) (vnode : Vnode) (key : List Byte) (val : value) :
    List Vnode → List Vnode → Trace → Option (List Vnode) × Trace
  | [], item_replicas, tr => (some item_replicas, tr)
  | succ :: rest, item_replicas, tr =>
    let nval := replicaCopy val
    let tr1 := tr ++ [Event.remoteSet vnode succ key nval 1 false]
    match w.remoteSet tr vnode succ key nval 1 false with
    | some _ => (none, tr1)
    | none => writeReplicas w vnode key val rest (item_replicas ++ [succ]) tr1

/-- The metadata `rval` of the second loop of `replicateKey`. -/
def completeMeta (vnode : Vnode) (item_replicas : List Vnode) (idx : Nat) : rvalue :=
  { Val := []
    timestamp := 0
    depth := idx
    state := .replicaComplete
    master := vnode
    replicaVnodes := item_replicas }

/-- The second loop of `replicateKey`, from index `idx` on: it breaks at the
first `remoteSetMeta` that fails. -/
def updateMeta (w : World) (vnode : Vnode) (key : List Byte) (item_replicas : List Vnode) :
    List Vnode → Nat → Trace → Trace
  | [], _, tr => tr
  | replica :: rest, idx, tr =>
    let rval := completeMeta vnode item_replicas idx
    let tr1 := tr ++ [Event.remoteSetMeta replica key rval]
    match w.remoteSetMeta tr replica key rval with
    | some _ => tr1
    | none => updateMeta w vnode key item_replicas rest (idx + 1) tr1

/-- The method `DTable.replicateKey`. It changes no table; the result is the
trace after it. -/
def replicateKey (w : World) (vnode : Vnode) (key : List Byte) (val : value) (limit : Int)
    (tr : Trace) : Trace :=
  match (w.GetVnodeHandler tr vnode).1 with
  | none => tr
  | some handler =>
    let tr1 := tr ++ [Event.FindRemoteSuccessors vnode limit]
    match handler.FindRemoteSuccessors tr limit with
    | .error _ => tr1
    | .ok remote_succs =>
      match writeReplicas w vnode key val remote_succs [] tr1 with
      | (none, tr2) => tr2
      | (some item_replicas, tr2) =>
        updateMeta w vnode key item_replicas item_replicas 0 tr2

/-- A `for k, v := range m` loop whose body adds no key to `m` and deletes
none but `k`: the body runs once for each entry `m` had at the start, in the
order of the list; a panic in the body ends the run. -/
def rangeLoop {α : Type} (body : String → α → DTable → Trace → Option (DTable × Trace)) :
    List (String × α) → DTable → Trace → Option (DTable × Trace)
  | [], dt, tr => some (dt, tr)
  | (k, v) :: rest, dt, tr =>
    match body k v dt tr with
    | none => none
    | some (dt1, tr1) => rangeLoop body rest dt1 tr1

/-- The body of the loop of `DTable.promote`, for the entry `key_str`, `rval`
of the replica store of `vnode`. -/
def promoteBody (w : World) (vnode : Vnode) (key_str : String) (rval : rvalue) (dt : DTable)
    (tr : Trace) : Option (DTable × Trace) :=
  if rval.depth ≠ 0 then some (dt, tr)
  else
    let tr1 := tr ++ [Event.Lookup 1 (w.KeyFromString key_str)]
    match w.Lookup tr 1 (w.KeyFromString key_str) with
    | .error _ => some (dt, tr1)
    | .ok succs =>
      match succs with
      | [] => none
      | succ0 :: _ =>
        if succ0.Id = vnode.Id then
          let new_val := rvalue2value rval
          match setIn dt.table vnode.String key_str new_val with
          | none => none
          | some table0 =>
            -- the table holds the pointer, so the assignment that follows shows in it
            let new_val := { new_val with commited := true }
            match setIn table0 vnode.String key_str new_val with
            | none => none
            | some table1 =>
              let tr2 := replicateKey w vnode (w.KeyFromString key_str) new_val w.Replicas tr1
              some ({ dt with table := table1,
                              rtable := deleteIn dt.rtable vnode.String key_str }, tr2)
        else
          some ({ dt with rtable := deleteIn dt.rtable vnode.String key_str }, tr1)

/-- The method `DTable.promote`. -/
def promote (w : World) (dt : DTable) (vnode : Vnode) (tr : Trace) : Option (DTable × Trace) :=
  rangeLoop (promoteBody w vnode) (rangeOf dt.rtable vnode.String) dt tr

/-- The inner loop of the local path of `demote`, over the chain from index
`idx` on, for the entry `rval` as already rewritten. -/
def pushMeta (w : World) (rkey : String) (rval : rvalue) :
    List Vnode → Nat → replicaState → Trace → Trace
  | [], _, _, tr => tr
  | replica :: rest, idx, inSync, tr =>
    if (idx : Int) = rval.depth then pushMeta w rkey rval rest (idx + 1) inSync tr
    else
      let meta_rval : rvalue :=
        { Val := []
          timestamp := 0
          depth := idx
          state := inSync
          master := rval.master
          replicaVnodes := rval.replicaVnodes }
      let tr1 := tr ++ [Event.remoteSetMeta replica (w.KeyFromString rkey) meta_rval]
      match w.remoteSetMeta tr replica (w.KeyFromString rkey) meta_rval with
      | some _ => pushMeta w rkey rval rest (idx + 1) .replicaIncomplete tr1
      | none => pushMeta w rkey rval rest (idx + 1) inSync tr1

/-- The assignment `rval.replicaVnodes[rval.depth] = new_pred`: a panic when
the depth is not an index of the chain. -/
def setChain (rval : rvalue) (new_pred : Vnode) : Option rvalue :=
  if 0 ≤ rval.depth ∧ rval.depth.toNat < rval.replicaVnodes.length then
    some { rval with replicaVnodes := rval.replicaVnodes.set rval.depth.toNat new_pred }
  else none

/-- The body of the loop of the local path of `demote`, for the entry `rkey`,
`rval` of the replica store of `vnode`. -/
def demoteLocalBody (w : World) (vnode new_pred : Vnode) (rkey : String) (rval : rvalue)
    (dt : DTable) (tr : Trace) : Option (DTable × Trace) :=
  match setChain rval new_pred with
  | none => none
  | some rval =>
    match setIn dt.rtable new_pred.String rkey rval with
    | none => none
    | some rtable1 =>
      let rtable2 := deleteIn rtable1 vnode.String rkey
      let tr1 := pushMeta w rkey rval rval.replicaVnodes 0 .replicaComplete tr
      some ({ dt with rtable := rtable2 }, tr1)

/-- The body of the loop of the remote path of `demote`, for the entry
`key_str`, `val` of the primary table of `vnode`. -/
def demoteRemoteBody (w : World) (vnode new_pred : Vnode) (key_str : String) (val : value)
    (dt : DTable) (tr : Trace) : Option (DTable × Trace) :=
  let key := w.KeyFromString key_str
  if w.Between vnode.Id new_pred.Id key true then
    match setIn dt.demoted_table vnode.String key_str
        (value2demotedItem val new_pred (w.Now tr)) with
    | none => none
    | some demoted1 =>
      let table1 := deleteIn dt.table vnode.String key_str
      let tr1 := tr ++ [Event.remoteSet vnode new_pred key val w.Replicas true]
      match w.remoteSet tr vnode new_pred key val w.Replicas true with
      | some _ =>
        -- the error is logged and the loop goes on
        some ({ dt with demoted_table := demoted1, table := table1 }, tr1)
      | none => some ({ dt with demoted_table := demoted1, table := table1 }, tr1)
  else some (dt, tr)

/-- The test at the head of `demote`: some local vnode has the host of
`new_pred`. -/
def isLocal (w : World) (new_pred : Vnode) (tr : Trace) : Bool :=
  (w.MyVnodes tr).any fun lvn => lvn.Host = new_pred.Host

/-- The method `DTable.demote`. -/
def demote (w : World) (dt : DTable) (vnode new_pred : Vnode) (tr : Trace) :
    Option (DTable × Trace) :=
  if isLocal w new_pred tr then
    rangeLoop (demoteLocalBody w vnode new_pred) (rangeOf dt.rtable vnode.String) dt tr
  else
    rangeLoop (demoteRemoteBody w vnode new_pred) (rangeOf dt.table vnode.String) dt tr

/-! ## `Delegate` (`dtable_replication.go`) and `ListVnodes` (`transport_zmq.go`) -/

/-- Modelled from the spec: `RingEventType` is declared outside the two
files; the ring emits the membership events PredecessorJoined and
PredecessorLeft, and any other event kind is `other`, with its number. -/
inductive RingEventType where
  | EvPredecessorJoined
  | EvPredecessorLeft
  | other (code : Int)
deriving DecidableEq, Repr

/-- The method `DTable.Delegate`. The mutex it is passed is not used. -/
def Delegate (w : World) (dt : DTable) (localVn new_pred : Vnode) (event : RingEventType)
    (tr : Trace) : Option (DTable × Trace) :=
  if (w.GetVnodeHandler tr localVn).2 = false then some (dt, tr)
  else
    match event with
    | .EvPredecessorLeft => promote w dt localVn tr
    | .EvPredecessorJoined => demote w dt localVn new_pred tr
    | _ => some (dt, tr)

/-- The errors `ListVnodes` returns. -/
inductive ListVnodesError where
  /-- The error of `NewSocket` or of `Connect`, returned as it is. -/
  | socket (e : String)
  /-- The text is "Error while reading response - %s". -/
  | reading (e : String)
  /-- The text is "error while decoding response for listVnodes - %s". -/
  | decoding (e : DecodeError)
  /-- The text is "got error response - %s". -/
  | remote (msg : String)
  /-- The text is "unexpected response for listVnodes". -/
  | unexpected
  /-- The text is "Command timed out!". -/
  | timedOut
deriving DecidableEq, Repr

/-- What is outside `ListVnodes` in one call of it: the errors of `NewSocket`
and of `Connect` (`none` is nil), the bytes `proto.Marshal` gives for the
empty request, the answer of `RecvBytes` to what was sent, and whether the
timer is the branch of the `select` that fires. -/
structure ListVnodesEnv where
  NewSocket : Option String
  Connect : String → Option String
  reqData : List Byte
  RecvBytes : List Byte → Except String (List Byte)
  timeoutFirst : Bool

/-- The goroutine of `ListVnodes`: what it sends on `error_c` (an error) or on
`resp_c` (the vnodes); `none` is the panic of a type assertion that fails. -/
def listVnodesReply (pb : PBDefs) (transport : ZMQTransport) (env : ListVnodesEnv) :
    Option (Except ListVnodesError (List Vnode)) :=
  let encoded := Encode transport pbListVnodes env.reqData
  match env.RecvBytes encoded with
  | .error e => some (.error (.reading e))
  | .ok resp =>
    match Decode pb transport resp with
    | .error e => some (.error (.decoding e))
    | .ok decoded =>
      if decoded.Typ = pbErr then
        match decoded.TransportMsg with
        | some (.err pbMsg) => some (.error (.remote (pb.GetError pbMsg)))
        | _ => none
      else if decoded.Typ = pbListVnodesResp then
        match decoded.TransportMsg with
        | some (.listVnodesResp pbMsg) =>
          some (.ok ((pb.GetVnodes pbMsg).map fun pbVnode =>
            { Id := pb.GetId pbVnode, Host := pb.GetHost pbVnode }))
        | _ => none
      else some (.error .unexpected)

/-- The method `ZMQTransport.ListVnodes`. -/
def ListVnodes (pb : PBDefs) (transport : ZMQTransport) (env : ListVnodesEnv) (host : String) :
    Option (Except ListVnodesError (List Vnode)) :=
  match env.NewSocket with
  | some e => some (.error (.socket e))
  | none =>
    match env.Connect ("tcp://" ++ host) with
    | some e => some (.error (.socket e))
    | none =>
      if env.timeoutFirst then some (.error .timedOut)
      else listVnodesReply pb transport env

/-! ## Vocabulary of the statements -/

/-- The replica-set RPCs `replicateKey` makes for the successors `succs`, in
their order: each from `vnode`, for `key`, with a replica-flagged copy of
`val` (state Incomplete, not committed), replica count 1, not a demotion. -/
def setEvents (vnode : Vnode) (key : List Byte) (val : value) (succs : List Vnode) :
    List Event :=
  succs.map fun succ =>
    Event.remoteSet vnode succ key
      { Val := val.Val
        timestamp := val.timestamp
        isReplica := true
        commited := false
        rstate := .replicaIncomplete
        clean_key := []
        replicaVnodes := [] }
      1 false

/-- The metadata-update RPCs for the members of `chain` from position `idx`
on, which are `members`: the one at position `i` goes to member `i` and
carries depth `i`, state Complete, master `vnode` and the whole chain. -/
def metaEventsFrom (vnode : Vnode) (key : List Byte) (chain : List Vnode) (idx : Nat)
    (members : List Vnode) : List Event :=
  (members.enumFrom idx).map fun p =>
    Event.remoteSetMeta p.2 key
      { Val := []
        timestamp := 0
        depth := (p.1 : Int)
        state := .replicaComplete
        master := vnode
        replicaVnodes := chain }

/-- The metadata-update RPCs for the whole chain, in chain order. -/
def metaEvents (vnode : Vnode) (key : List Byte) (chain : List Vnode) : List Event :=
  metaEventsFrom vnode key chain 0 chain

/-- The error with which the replica-set RPC to successor number `i` answers
in a run of `replicateKey` from the trace `tr` in which the handler returned
`succs` and the sends before it went through; `none` is a nil error. -/
def setError (w : World) (vnode : Vnode) (key : List Byte) (val : value) (limit : Int)
    (succs : List Vnode) (tr : Trace) (i : Nat) : Option String :=
  match succs[i]? with
  | none => none
  | some succ =>
    w.remoteSet
      (tr ++ Event.FindRemoteSuccessors vnode limit :: setEvents vnode key val (succs.take i))
      vnode succ key (replicaCopy val) 1 false

/-- The error with which the metadata-update RPC to successor number `i`
answers in a run of `replicateKey` from `tr` in which every replica-set RPC
and the metadata updates before it went through. -/
def metaError (w : World) (vnode : Vnode) (key : List Byte) (val : value) (limit : Int)
    (succs : List Vnode) (tr : Trace) (i : Nat) : Option String :=
  match succs[i]? with
  | none => none
  | some replica =>
    w.remoteSetMeta
      (tr ++ Event.FindRemoteSuccessors vnode limit ::
        (setEvents vnode key val succs ++ (metaEvents vnode key succs).take i))
      replica key (completeMeta vnode succs i)

/-- Whether an event is a replica-set or demotion send (`remoteSet`). -/
def isRemoteSet : Event → Bool
  | .remoteSet _ _ _ _ _ _ => true
  | _ => false

/-- Whether an event is a metadata-update RPC (`remoteSetMeta`). -/
def isRemoteSetMeta : Event → Bool
  | .remoteSetMeta _ _ _ => true
  | _ => false

/-- The calls a run made, given the trace `tr` it started from and the trace
`tr'` it ended with. -/
def issued (tr tr' : Trace) : Trace :=
  tr'.drop tr.length

/-- The entries under the inner key `k` are the same in `a` and in `b`, in
each of the three tables and for every vnode. -/
def AgreeAt (k : String) (a b : DTable) : Prop :=
  ∀ o, getIn b.table o k = getIn a.table o k
    ∧ getIn b.rtable o k = getIn a.rtable o k
    ∧ getIn b.demoted_table o k = getIn a.demoted_table o k

/-- A loop body changes nothing but entries under the key it runs for. -/
def TouchesOwnKey {α : Type}
    (body : String → α → DTable → Trace → Option (DTable × Trace)) : Prop :=
  ∀ k v dt tr dt1 tr1, body k v dt tr = some (dt1, tr1) → ∀ k', k' ≠ k → AgreeAt k' dt dt1

/-- A loop body only adds to the trace. -/
def GrowsTrace {α : Type}
    (body : String → α → DTable → Trace → Option (DTable × Trace)) : Prop :=
  ∀ k v dt tr dt1 tr1, body k v dt tr = some (dt1, tr1) → tr <+: tr1

/-- The key an event is for: the handler query has none. -/
def eventKey : Event → Option (List Byte)
  | .Lookup _ key => some key
  | .FindRemoteSuccessors _ _ => none
  | .remoteSet _ _ key _ _ _ => some key
  | .remoteSetMeta _ key _ => some key

/-- What a metadata-update RPC says, its sync state apart: the vnode it goes
to, the key, and the depth, the master and the chain it carries. -/
structure MetaCall where
  target : Vnode
  key : List Byte
  depth : Int
  master : Vnode
  chain : List Vnode
deriving DecidableEq, Repr

/-- The content of an event that is a metadata-update RPC. -/
def metaCallOf : Event → Option MetaCall
  | .remoteSetMeta target key rval =>
    some ⟨target, key, rval.depth, rval.master, rval.replicaVnodes⟩
  | _ => none

/-- The metadata-update RPCs for the entry `rv` and the members `members` of
its chain, which stand at the positions from `idx` on: one to each member
whose position is not the depth of the entry, in the order of the positions,
with that position as depth, the master of the entry and its chain. -/
def chainCallsFrom (key : List Byte) (rv : rvalue) (idx : Nat) (members : List Vnode) :
    List MetaCall :=
  ((members.enumFrom idx).filter fun p => decide ((p.1 : Int) ≠ rv.depth)).map fun p =>
    ⟨p.2, key, (p.1 : Int), rv.master, rv.replicaVnodes⟩

/-- The metadata-update RPCs of the local path of `demote` for the entry `rv`
of the old store: those of the entry with `new_pred` written at its depth
into the chain. -/
def chainCalls (new_pred : Vnode) (key : List Byte) (rv : rvalue) : List MetaCall :=
  chainCallsFrom key
    { rv with replicaVnodes := rv.replicaVnodes.set rv.depth.toNat new_pred } 0
    (rv.replicaVnodes.set rv.depth.toNat new_pred)

/-- Whether the call number `m` of the calls `evs`, made from the trace `tr0`
on, is a metadata-update RPC that fails. -/
def pushFailed (w : World) (tr0 : Trace) (evs : List Event) (m : Nat) : Bool :=
  match evs[m]? with
  | some (.remoteSetMeta target key rval) =>
    (w.remoteSetMeta (tr0 ++ evs.take m) target key rval).isSome
  | _ => false

/-! ## Example inputs -/

/-- The pairs of a byte string of even length. -/
def toyPairs : List Byte → Except String (List (Byte × Byte))
  | [] => .ok []
  | [_] => .error "listVnodesResp: odd length"
  | i :: h :: rest =>
    match toyPairs rest with
    | .error e => .error e
    | .ok ps => .ok ((i, h) :: ps)

/-- A small stand-in for the protobuf layer, for the examples: a ping is at
most one byte, a join or a leave is not empty, a list-vnodes request is
empty, a list-vnodes response is a string of (id, host) byte pairs. -/
def toyPB : PBDefs where
  PBProtoPing := Nat
  PBProtoErr := List Byte
  PBProtoJoin := List Byte
  PBProtoLeave := List Byte
  PBProtoListVnodes := Unit
  PBProtoListVnodesResp := List (Byte × Byte)
  PBProtoVnode := Byte × Byte
  UnmarshalPing := fun b =>
    match b with
    | [] => .ok 0
    | [v] => .ok v.val
    | _ => .error "ping: trailing bytes"
  UnmarshalErr := fun b => .ok b
  UnmarshalJoin := fun b => if b = [] then .error "join: no vnode" else .ok b
  UnmarshalLeave := fun b => if b = [] then .error "leave: no vnode" else .ok b
  UnmarshalListVnodes := fun b => if b = [] then .ok () else .error "listVnodes: not empty"
  UnmarshalListVnodesResp := toyPairs
  GetError := fun m => String.mk (m.map fun b => Char.ofNat b.val)
  GetVnodes := fun m => m
  GetId := fun v => [v.1]
  GetHost := fun v => String.mk [Char.ofNat v.2.val]

/-- The local vnode the examples run on. -/
def vA : Vnode := ⟨[200], "hostA"⟩

/-- A second vnode of the same host. -/
def vA2 : Vnode := ⟨[100], "hostA"⟩

def vB : Vnode := ⟨[20], "hostB"⟩

def vC : Vnode := ⟨[60], "hostC"⟩

def vD : Vnode := ⟨[120], "hostD"⟩

/-- The key of a key string in the examples: its character codes. -/
def toyKey (s : String) : List Byte :=
  s.toList.map fun c => Fin.ofNat c.toNat

/-- The interval test of the examples, on the first bytes: `x` lies on the
ring after `a` and before `b`, or at `b` when `incl`. -/
def toyBetween (a b x : List Byte) (incl : Bool) : Bool :=
  let a0 := a.headD 0
  let b0 := b.headD 0
  let x0 := x.headD 0
  if a0 < b0 then decide (a0 < x0) && (decide (x0 < b0) || (incl && decide (x0 = b0)))
  else decide (a0 < x0) || decide (x0 < b0) || (incl && decide (x0 = b0))

/-- The world of the examples. The host `hostA` runs `vA` and `vA2`; its
handlers return the first `limit` of `succs`; keys that begin with `a` have
`vA` as successor, keys that begin with `x` cannot be looked up, the others
have `vB`; a send to `t` fails when `setFails t`, a metadata update when
`metaFails t`. -/
def toyWorld (succs : List Vnode) (setFails metaFails : Vnode → Bool) : World where
  KeyFromString := toyKey
  Between := toyBetween
  Replicas := 2
  MyVnodes := fun _ => [vA, vA2]
  Lookup := fun _ _ key =>
    if key.head? = some 97 then .ok [vA]
    else if key.head? = some 120 then .error "lookup failed"
    else .ok [vB]
  GetVnodeHandler := fun _ vn =>
    if vn.Host = "hostA" then (some ⟨fun _ limit => .ok (succs.take limit.toNat)⟩, true)
    else (none, false)
  remoteSet := fun _ _ target _ _ _ _ => if setFails target then some "set failed" else none
  remoteSetMeta := fun _ target _ _ =>
    if metaFails target then some "setMeta failed" else none
  Now := fun tr => 1000 + tr.length

/-- Two remote successors, every call goes through. -/
def calmWorld : World := toyWorld [vB, vC] (fun _ => false) (fun _ => false)

/-- One remote successor only. -/
def smallWorld : World := toyWorld [vB] (fun _ => false) (fun _ => false)

/-- Sends to `vC` fail. -/
def lossyWorld : World := toyWorld [vB, vC] (fun t => decide (t = vC)) (fun _ => false)

/-- Metadata updates to `vB` fail. -/
def metaLossyWorld : World := toyWorld [vB, vC] (fun _ => false) (fun t => decide (t = vB))

/-- The map with the given entries. -/
def mapOf {α : Type} (l : List (String × α)) : GoMap α :=
  l.foldr (fun e m => m.insert e.1 e.2) ∅

def exVal : value :=
  { Val := [7, 7], timestamp := 42, isReplica := false, commited := true,
    rstate := .replicaComplete, clean_key := [97, 50], replicaVnodes := [vB, vC] }

/-- A first replica (depth 0) held for the master `vD`. -/
def exRval : rvalue :=
  { Val := [9], timestamp := 41, depth := 0, state := .replicaComplete, master := vD,
    replicaVnodes := [vA, vC] }

/-- A second replica (depth 1). -/
def exRval1 : rvalue :=
  { Val := [8], timestamp := 40, depth := 1, state := .replicaComplete, master := vD,
    replicaVnodes := [vB, vA] }

/-- The tables of the examples: `vA` is primary for `a2` and `z9` and holds
replicas of `a1`, `b1` (depth 0) and `c1` (depth 1); `vA2` holds nothing. -/
def exDT : DTable where
  table := mapOf [(vA.String, mapOf [("a2", exVal), ("z9", exVal)]), (vA2.String, mapOf [])]
  rtable := mapOf
    [(vA.String, mapOf [("a1", exRval), ("b1", exRval), ("c1", exRval1)]),
     (vA2.String, mapOf [])]
  demoted_table := mapOf [(vA.String, mapOf []), (vA2.String, mapOf [])]

/-- Tables in which `vA` holds `b1` both as a primary and as a first replica. -/
def heldTwiceDT : DTable where
  table := mapOf [(vA.String, mapOf [("b1", exVal)])]
  rtable := mapOf [(vA.String, mapOf [("b1", exRval)])]
  demoted_table := mapOf [(vA.String, mapOf [])]

/-- A peer of the examples that answers a list-vnodes request with `resp`,
in time unless `late`. -/
def toyPeer (resp : List Byte) (late : Bool) : ListVnodesEnv where
  NewSocket := none
  Connect := fun _ => none
  reqData := []
  RecvBytes := fun _ => .ok resp
  timeoutFirst := late

/-- Every send and every metadata update fails. -/
def deafWorld : World := toyWorld [vB] (fun _ => true) (fun _ => true)

/-- A first replica with a chain of three. -/
def exRval3 : rvalue :=
  { Val := [5], timestamp := 39, depth := 0, state := .replicaComplete, master := vD,
    replicaVnodes := [vA, vB, vC] }

/-- Tables in which `vA` holds first replicas of `x1`, which cannot be looked
up, and of `a1`. -/
def exDT2 : DTable where
  table := mapOf [(vA.String, mapOf [])]
  rtable := mapOf [(vA.String, mapOf [("x1", exRval), ("a1", exRval)])]
  demoted_table := mapOf [(vA.String, mapOf [])]

/-- Tables in which `vA` holds the one replica `a3`, with its chain of three. -/
def exDT3 : DTable where
  table := mapOf [(vA.String, mapOf []), (vA2.String, mapOf [])]
  rtable := mapOf [(vA.String, mapOf [("a3", exRval3)]), (vA2.String, mapOf [])]
  demoted_table := mapOf [(vA.String, mapOf []), (vA2.String, mapOf [])]

/-! ## Lemmas: the replicator -/

theorem setEvents_nil (vnode : Vnode) (key : List Byte) (val : value) :
    setEvents vnode key val [] = [] := rfl

theorem setEvents_cons (vnode : Vnode) (key : List Byte) (val : value) (s : Vnode)
    (rest : List Vnode) :
    setEvents vnode key val (s :: rest)
      = Event.remoteSet vnode s key (replicaCopy val) 1 false :: setEvents vnode key val rest :=
  rfl

theorem writeReplicas_ok (w : World) (vnode : Vnode) (key : List Byte) (val : value) :
    ∀ (succs acc : List Vnode) (tr : Trace),
      (∀ i s, succs[i]? = some s →
        w.remoteSet (tr ++ setEvents vnode key val (succs.take i)) vnode s key
          (replicaCopy val) 1 false = none) →
      writeReplicas w vnode key val succs acc tr
        = (some (acc ++ succs), tr ++ setEvents vnode key val succs) := by
  intro succs
  induction succs with
  | nil => intro acc tr _; simp [writeReplicas, setEvents_nil]
  | cons s rest ih =>
    intro acc tr h
    have h0 := h 0 s (by simp)
    simp only [List.take_zero, setEvents_nil, List.append_nil] at h0
    have hrest : ∀ i s', rest[i]? = some s' →
        w.remoteSet ((tr ++ [Event.remoteSet vnode s key (replicaCopy val) 1 false])
            ++ setEvents vnode key val (rest.take i)) vnode s' key (replicaCopy val) 1 false
          = none := by
      intro i s' hi
      have := h (i + 1) s' (by simpa using hi)
      simpa [setEvents_cons, List.append_assoc] using this
    simp only [writeReplicas, h0]
    rw [ih _ _ hrest]
    simp [setEvents_cons, List.append_assoc]

theorem writeReplicas_fail (w : World) (vnode : Vnode) (key : List Byte) (val : value) :
    ∀ (succs acc : List Vnode) (tr : Trace) (j : Nat) (sj : Vnode),
      succs[j]? = some sj →
      (∀ i s, i < j → succs[i]? = some s →
        w.remoteSet (tr ++ setEvents vnode key val (succs.take i)) vnode s key
          (replicaCopy val) 1 false = none) →
      w.remoteSet (tr ++ setEvents vnode key val (succs.take j)) vnode sj key
          (replicaCopy val) 1 false ≠ none →
      writeReplicas w vnode key val succs acc tr
        = (none, tr ++ setEvents vnode key val (succs.take (j + 1))) := by
  intro succs
  induction succs with
  | nil => intro acc tr j sj hj; simp at hj
  | cons s rest ih =>
    intro acc tr j sj hj hbefore hfail
    cases j with
    | zero =>
      simp only [List.getElem?_cons_zero, Option.some.injEq] at hj
      subst hj
      simp only [List.take_zero, setEvents_nil, List.append_nil] at hfail
      cases hr : w.remoteSet tr vnode s key (replicaCopy val) 1 false with
      | none => exact absurd hr hfail
      | some e => simp [writeReplicas, hr, setEvents_cons, setEvents_nil]
    | succ j =>
      have h0 := hbefore 0 s (Nat.succ_pos j) (by simp)
      simp only [List.take_zero, setEvents_nil, List.append_nil] at h0
      have hj' : rest[j]? = some sj := by simpa using hj
      have hrest : ∀ i s', i < j → rest[i]? = some s' →
          w.remoteSet ((tr ++ [Event.remoteSet vnode s key (replicaCopy val) 1 false])
              ++ setEvents vnode key val (rest.take i)) vnode s' key (replicaCopy val) 1 false
            = none := by
        intro i s' hij hi
        have := hbefore (i + 1) s' (Nat.succ_lt_succ hij) (by simpa using hi)
        simpa [setEvents_cons, List.append_assoc] using this
      have hfail' : w.remoteSet ((tr ++ [Event.remoteSet vnode s key (replicaCopy val) 1 false])
              ++ setEvents vnode key val (rest.take j)) vnode sj key (replicaCopy val) 1 false
            ≠ none := by
        simpa [setEvents_cons, List.append_assoc] using hfail
      simp only [writeReplicas, h0]
      rw [ih _ _ j sj hj' hrest hfail']
      simp [setEvents_cons, List.append_assoc]

theorem metaEventsFrom_nil (vnode : Vnode) (key : List Byte) (chain : List Vnode) (idx : Nat) :
    metaEventsFrom vnode key chain idx [] = [] := rfl

theorem metaEventsFrom_cons (vnode : Vnode) (key : List Byte) (chain : List Vnode) (idx : Nat)
    (s : Vnode) (rest : List Vnode) :
    metaEventsFrom vnode key chain idx (s :: rest)
      = Event.remoteSetMeta s key (completeMeta vnode chain idx)
          :: metaEventsFrom vnode key chain (idx + 1) rest := rfl

theorem updateMeta_ok (w : World) (vnode : Vnode) (key : List Byte) (chain : List Vnode) :
    ∀ (members : List Vnode) (idx : Nat) (tr : Trace),
      (∀ i s, members[i]? = some s →
        w.remoteSetMeta (tr ++ (metaEventsFrom vnode key chain idx members).take i) s key
          (completeMeta vnode chain (idx + i)) = none) →
      updateMeta w vnode key chain members idx tr
        = tr ++ metaEventsFrom vnode key chain idx members := by
  intro members
  induction members with
  | nil => intro idx tr _; simp [updateMeta, metaEventsFrom_nil]
  | cons s rest ih =>
    intro idx tr h
    have h0 := h 0 s (by simp)
    simp only [List.take_zero, List.append_nil, Nat.add_zero] at h0
    have hrest : ∀ i s', rest[i]? = some s' →
        w.remoteSetMeta ((tr ++ [Event.remoteSetMeta s key (completeMeta vnode chain idx)])
            ++ (metaEventsFrom vnode key chain (idx + 1) rest).take i) s' key
          (completeMeta vnode chain (idx + 1 + i)) = none := by
      intro i s' hi
      have := h (i + 1) s' (by simpa using hi)
      have e : idx + (i + 1) = idx + 1 + i := by omega
      simpa [metaEventsFrom_cons, List.append_assoc, e] using this
    simp only [updateMeta, h0]
    rw [ih _ _ hrest]
    simp [metaEventsFrom_cons, List.append_assoc]

theorem updateMeta_fail (w : World) (vnode : Vnode) (key : List Byte) (chain : List Vnode) :
    ∀ (members : List Vnode) (idx : Nat) (tr : Trace) (j : Nat) (sj : Vnode),
      members[j]? = some sj →
      (∀ i s, i < j → members[i]? = some s →
        w.remoteSetMeta (tr ++ (metaEventsFrom vnode key chain idx members).take i) s key
          (completeMeta vnode chain (idx + i)) = none) →
      w.remoteSetMeta (tr ++ (metaEventsFrom vnode key chain idx members).take j) sj key
          (completeMeta vnode chain (idx + j)) ≠ none →
      updateMeta w vnode key chain members idx tr
        = tr ++ (metaEventsFrom vnode key chain idx members).take (j + 1) := by
  intro members
  induction members with
  | nil => intro idx tr j sj hj; simp at hj
  | cons s rest ih =>
    intro idx tr j sj hj hbefore hfail
    cases j with
    | zero =>
      simp only [List.getElem?_cons_zero, Option.some.injEq] at hj
      subst hj
      simp only [List.take_zero, List.append_nil, Nat.add_zero] at hfail
      cases hr : w.remoteSetMeta tr s key (completeMeta vnode chain idx) with
      | none => exact absurd hr hfail
      | some e => simp [updateMeta, hr, metaEventsFrom_cons]
    | succ j =>
      have h0 := hbefore 0 s (Nat.succ_pos j) (by simp)
      simp only [List.take_zero, List.append_nil, Nat.add_zero] at h0
      have hj' : rest[j]? = some sj := by simpa using hj
      have hrest : ∀ i s', i < j → rest[i]? = some s' →
          w.remoteSetMeta ((tr ++ [Event.remoteSetMeta s key (completeMeta vnode chain idx)])
              ++ (metaEventsFrom vnode key chain (idx + 1) rest).take i) s' key
            (completeMeta vnode chain (idx + 1 + i)) = none := by
        intro i s' hij hi
        have := hbefore (i + 1) s' (Nat.succ_lt_succ hij) (by simpa using hi)
        have e : idx + (i + 1) = idx + 1 + i := by omega
        simpa [metaEventsFrom_cons, List.append_assoc, e] using this
      have hfail' : w.remoteSetMeta
            ((tr ++ [Event.remoteSetMeta s key (completeMeta vnode chain idx)])
              ++ (metaEventsFrom vnode key chain (idx + 1) rest).take j) sj key
            (completeMeta vnode chain (idx + 1 + j)) ≠ none := by
        have e : idx + (j + 1) = idx + 1 + j := by omega
        simpa [metaEventsFrom_cons, List.append_assoc, e] using hfail
      simp only [updateMeta, h0]
      rw [ih _ _ j sj hj' hrest hfail']
      simp [metaEventsFrom_cons, List.append_assoc]

/-- In a run where the handler returns `succs` and every replica-set RPC goes
through, `replicateKey` reaches its second loop with all of `succs` written. -/
theorem replicateKey_sets_ok (w : World) (vnode : Vnode) (key : List Byte) (val : value)
    (limit : Int) (tr : Trace) (handler : VnodeHandler) (succs : List Vnode)
    (hh : (w.GetVnodeHandler tr vnode).1 = some handler)
    (hs : handler.FindRemoteSuccessors tr limit = .ok succs)
    (hok : ∀ i, i < succs.length → setError w vnode key val limit succs tr i = none) :
    replicateKey w vnode key val limit tr
      = updateMeta w vnode key succs succs 0
          (tr ++ Event.FindRemoteSuccessors vnode limit :: setEvents vnode key val succs) := by
  have hw := writeReplicas_ok w vnode key val succs []
    (tr ++ [Event.FindRemoteSuccessors vnode limit]) (by
      intro i s hi
      have hlt : i < succs.length := by
        rcases List.getElem?_eq_some_iff.mp hi with ⟨h, _⟩
        exact h
      have := hok i hlt
      simpa [setError, hi, List.append_assoc] using this)
  simp only [replicateKey, hh, hs, hw]
  simp [List.append_assoc]

/-- In a run where the handler returns `succs` and the replica-set RPC to
successor number `j` is the first to fail, `replicateKey` returns there. -/
theorem replicateKey_set_fails (w : World) (vnode : Vnode) (key : List Byte) (val : value)
    (limit : Int) (tr : Trace) (handler : VnodeHandler) (succs : List Vnode) (j : Nat)
    (hh : (w.GetVnodeHandler tr vnode).1 = some handler)
    (hs : handler.FindRemoteSuccessors tr limit = .ok succs)
    (hj : j < succs.length)
    (hbefore : ∀ i, i < j → setError w vnode key val limit succs tr i = none)
    (hfail : setError w vnode key val limit succs tr j ≠ none) :
    replicateKey w vnode key val limit tr
      = tr ++ Event.FindRemoteSuccessors vnode limit
          :: setEvents vnode key val (succs.take (j + 1)) := by
  have hjs : succs[j]? = some succs[j] := List.getElem?_eq_getElem hj
  have hw := writeReplicas_fail w vnode key val succs []
    (tr ++ [Event.FindRemoteSuccessors vnode limit]) j succs[j] hjs (by
      intro i s hij hi
      have := hbefore i hij
      simpa [setError, hi, List.append_assoc] using this) (by
      simpa [setError, hjs, List.append_assoc] using hfail)
  simp only [replicateKey, hh, hs, hw]
  simp [List.append_assoc]

/-! ## Maps of maps -/

theorem getIn_setIn_same {α : Type} {m m' : GoMap (GoMap α)} {o k : String} {v : α}
    (h : setIn m o k v = some m') : getIn m' o k = some v := by
  unfold setIn at h
  cases hl : m.lookup o with
  | none => simp [hl] at h
  | some inner =>
    simp only [hl, Option.some.injEq] at h
    subst h
    simp [getIn]

theorem getIn_setIn_other {α : Type} {m m' : GoMap (GoMap α)} {o k o' k' : String} {v : α}
    (h : setIn m o k v = some m') (hne : o' ≠ o ∨ k' ≠ k) :
    getIn m' o' k' = getIn m o' k' := by
  unfold setIn at h
  cases hl : m.lookup o with
  | none => simp [hl] at h
  | some inner =>
    simp only [hl, Option.some.injEq] at h
    subst h
    by_cases ho : o' = o
    · subst ho
      have hk : k' ≠ k := by
        rcases hne with h1 | h1
        · exact absurd rfl h1
        · exact h1
      simp [getIn, hl, AList.lookup_insert_ne hk]
    · simp [getIn, AList.lookup_insert_ne ho]

theorem getIn_deleteIn_same {α : Type} (m : GoMap (GoMap α)) (o k : String) :
    getIn (deleteIn m o k) o k = none := by
  unfold deleteIn
  cases hl : m.lookup o with
  | none => simp [getIn, hl]
  | some inner => simp [getIn]

theorem getIn_deleteIn_other {α : Type} (m : GoMap (GoMap α)) {o k o' k' : String}
    (hne : o' ≠ o ∨ k' ≠ k) : getIn (deleteIn m o k) o' k' = getIn m o' k' := by
  unfold deleteIn
  cases hl : m.lookup o with
  | none => rfl
  | some inner =>
    by_cases ho : o' = o
    · subst ho
      have hk : k' ≠ k := by
        rcases hne with h1 | h1
        · exact absurd rfl h1
        · exact h1
      simp [getIn, hl, AList.lookup_erase_ne hk]
    · simp [getIn, AList.lookup_insert_ne ho]

theorem lookup_isSome_setIn {α : Type} {m m' : GoMap (GoMap α)} {o k : String} {v : α}
    (h : setIn m o k v = some m') (o' : String) :
    (m'.lookup o').isSome = (m.lookup o').isSome := by
  unfold setIn at h
  cases hl : m.lookup o with
  | none => simp [hl] at h
  | some inner =>
    simp only [hl, Option.some.injEq] at h
    subst h
    by_cases ho : o' = o
    · subst ho; simp [hl]
    · simp [AList.lookup_insert_ne ho]

theorem lookup_isSome_deleteIn {α : Type} (m : GoMap (GoMap α)) (o k o' : String) :
    ((deleteIn m o k).lookup o').isSome = (m.lookup o').isSome := by
  unfold deleteIn
  cases hl : m.lookup o with
  | none => rfl
  | some inner =>
    by_cases ho : o' = o
    · subst ho; simp [hl]
    · simp [AList.lookup_insert_ne ho]

theorem setIn_isSome {α : Type} {m : GoMap (GoMap α)} {o : String}
    (h : (m.lookup o).isSome) (k : String) (v : α) : ∃ m', setIn m o k v = some m' := by
  unfold setIn
  cases hl : m.lookup o with
  | none => simp [hl] at h
  | some inner => exact ⟨_, rfl⟩

theorem mem_rangeOf {α : Type} (m : GoMap (GoMap α)) (o k : String) (v : α) :
    (k, v) ∈ rangeOf m o ↔ getIn m o k = some v := by
  unfold rangeOf getIn
  cases hl : m.lookup o with
  | none => simp
  | some inner =>
    simp only [List.mem_map, Option.some_bind]
    rw [← Option.mem_def, AList.mem_lookup_iff]
    constructor
    · rintro ⟨⟨k1, v1⟩, hmem, heq⟩
      simp only [Prod.mk.injEq] at heq
      obtain ⟨rfl, rfl⟩ := heq
      exact hmem
    · intro hmem
      exact ⟨⟨k, v⟩, hmem, rfl⟩

theorem rangeOf_nodup {α : Type} (m : GoMap (GoMap α)) (o : String) :
    ((rangeOf m o).map Prod.fst).Nodup := by
  unfold rangeOf
  cases hl : m.lookup o with
  | none => simp
  | some inner =>
    have := inner.keys_nodup
    simpa [AList.keys, List.keys, List.map_map, Function.comp_def] using this

/-! ## Lemmas: range loops -/

theorem AgreeAt.refl (k : String) (a : DTable) : AgreeAt k a a :=
  fun _ => ⟨rfl, rfl, rfl⟩

theorem AgreeAt.trans {k : String} {a b c : DTable} (h1 : AgreeAt k a b) (h2 : AgreeAt k b c) :
    AgreeAt k a c := fun o =>
  ⟨(h2 o).1.trans (h1 o).1, (h2 o).2.1.trans (h1 o).2.1, (h2 o).2.2.trans (h1 o).2.2⟩

theorem rangeLoop_frame {α : Type}
    {body : String → α → DTable → Trace → Option (DTable × Trace)} (hb : TouchesOwnKey body)
    (k : String) :
    ∀ (es : List (String × α)) (dt : DTable) (tr : Trace) (dt' : DTable) (tr' : Trace),
      k ∉ es.map Prod.fst → rangeLoop body es dt tr = some (dt', tr') → AgreeAt k dt dt' := by
  intro es
  induction es with
  | nil =>
    intro dt tr dt' tr' _ h
    simp only [rangeLoop, Option.some.injEq, Prod.mk.injEq] at h
    rw [← h.1]
    exact AgreeAt.refl k dt
  | cons e rest ih =>
    obtain ⟨k0, v0⟩ := e
    intro dt tr dt' tr' hk h
    simp only [List.map_cons, List.mem_cons, not_or] at hk
    unfold rangeLoop at h
    cases hb0 : body k0 v0 dt tr with
    | none => simp [hb0] at h
    | some r =>
      obtain ⟨dt1, tr1⟩ := r
      simp only [hb0] at h
      exact (hb k0 v0 dt tr dt1 tr1 hb0 k hk.1).trans (ih dt1 tr1 dt' tr' hk.2 h)

theorem rangeLoop_grows {α : Type}
    {body : String → α → DTable → Trace → Option (DTable × Trace)} (hg : GrowsTrace body) :
    ∀ (es : List (String × α)) (dt : DTable) (tr : Trace) (dt' : DTable) (tr' : Trace),
      rangeLoop body es dt tr = some (dt', tr') → tr <+: tr' := by
  intro es
  induction es with
  | nil =>
    intro dt tr dt' tr' h
    simp only [rangeLoop, Option.some.injEq, Prod.mk.injEq] at h
    rw [← h.2]
  | cons e rest ih =>
    obtain ⟨k0, v0⟩ := e
    intro dt tr dt' tr' h
    unfold rangeLoop at h
    cases hb0 : body k0 v0 dt tr with
    | none => simp [hb0] at h
    | some r =>
      obtain ⟨dt1, tr1⟩ := r
      simp only [hb0] at h
      exact (hg k0 v0 dt tr dt1 tr1 hb0).trans (ih dt1 tr1 dt' tr' h)

theorem rangeLoop_at_key {α : Type}
    {body : String → α → DTable → Trace → Option (DTable × Trace)} (hb : TouchesOwnKey body)
    (hg : GrowsTrace body) (k : String) (v : α) :
    ∀ (es : List (String × α)) (dt : DTable) (tr : Trace) (dt' : DTable) (tr' : Trace),
      (es.map Prod.fst).Nodup → (k, v) ∈ es → rangeLoop body es dt tr = some (dt', tr') →
      ∃ dt0 tr0 dt1 tr1, AgreeAt k dt dt0 ∧ tr <+: tr0 ∧ body k v dt0 tr0 = some (dt1, tr1)
        ∧ AgreeAt k dt1 dt' ∧ tr1 <+: tr' := by
  intro es
  induction es with
  | nil => intro dt tr dt' tr' _ hmem; simp at hmem
  | cons e rest ih =>
    obtain ⟨k0, v0⟩ := e
    intro dt tr dt' tr' hnd hmem h
    simp only [List.map_cons, List.nodup_cons] at hnd
    unfold rangeLoop at h
    cases hb0 : body k0 v0 dt tr with
    | none => simp [hb0] at h
    | some r =>
      obtain ⟨dt1, tr1⟩ := r
      simp only [hb0] at h
      rcases List.mem_cons.mp hmem with heq | htail
      · simp only [Prod.mk.injEq] at heq
        obtain ⟨rfl, rfl⟩ := heq
        exact ⟨dt, tr, dt1, tr1, AgreeAt.refl _ _, List.prefix_refl _, hb0,
          rangeLoop_frame hb k rest dt1 tr1 dt' tr' hnd.1 h,
          rangeLoop_grows hg rest dt1 tr1 dt' tr' h⟩
      · have hne : k ≠ k0 := by
          rintro rfl
          exact hnd.1 (List.mem_map.mpr ⟨(k, v), htail, rfl⟩)
        obtain ⟨dt0, tr0, dt2, tr2, ha, hp, hbody, hz, hq⟩ :=
          ih dt1 tr1 dt' tr' hnd.2 htail h
        exact ⟨dt0, tr0, dt2, tr2, (hb k0 v0 dt tr dt1 tr1 hb0 k hne).trans ha,
          (hg k0 v0 dt tr dt1 tr1 hb0).trans hp, hbody, hz, hq⟩

theorem rangeLoop_total {α : Type}
    {body : String → α → DTable → Trace → Option (DTable × Trace)} (Inv : DTable → Prop) :
    ∀ (es : List (String × α)) (dt : DTable) (tr : Trace),
      Inv dt →
      (∀ k v, (k, v) ∈ es → ∀ dt0 tr0, Inv dt0 →
        ∃ dt1 tr1, body k v dt0 tr0 = some (dt1, tr1) ∧ Inv dt1) →
      ∃ dt' tr', rangeLoop body es dt tr = some (dt', tr') := by
  intro es
  induction es with
  | nil => intro dt tr _ _; exact ⟨dt, tr, rfl⟩
  | cons e rest ih =>
    obtain ⟨k0, v0⟩ := e
    intro dt tr hinv hstep
    obtain ⟨dt1, tr1, hb0, hinv1⟩ := hstep k0 v0 (List.mem_cons_self _ _) dt tr hinv
    obtain ⟨dt', tr', h⟩ := ih dt1 tr1 hinv1
      (fun k v hm => hstep k v (List.mem_cons_of_mem _ hm))
    exact ⟨dt', tr', by simp [rangeLoop, hb0, h]⟩

/-! ## Lemmas: the trace only grows -/

theorem writeReplicas_extends (w : World) (vnode : Vnode) (key : List Byte) (val : value) :
    ∀ (succs acc : List Vnode) (tr : Trace),
      tr <+: (writeReplicas w vnode key val succs acc tr).2 := by
  intro succs
  induction succs with
  | nil => intro acc tr; exact List.prefix_refl _
  | cons s rest ih =>
    intro acc tr
    unfold writeReplicas
    dsimp only
    split
    · exact List.prefix_append _ _
    · exact (List.prefix_append _ _).trans (ih _ _)

theorem updateMeta_extends (w : World) (vnode : Vnode) (key : List Byte) (chain : List Vnode) :
    ∀ (members : List Vnode) (idx : Nat) (tr : Trace),
      ∃ metas, updateMeta w vnode key chain members idx tr = tr ++ metas
        ∧ ∀ e ∈ metas, ∃ target rval, e = Event.remoteSetMeta target key rval := by
  intro members
  induction members with
  | nil => intro idx tr; exact ⟨[], by simp [updateMeta], by simp⟩
  | cons s rest ih =>
    intro idx tr
    unfold updateMeta
    dsimp only
    split
    · exact ⟨[_], rfl, by simp⟩
    · obtain ⟨metas, hm, hall⟩ := ih (idx + 1)
        (tr ++ [Event.remoteSetMeta s key (completeMeta vnode chain idx)])
      refine ⟨Event.remoteSetMeta s key (completeMeta vnode chain idx) :: metas, ?_, ?_⟩
      · rw [hm]; simp
      · intro e he
        rcases List.mem_cons.mp he with rfl | he
        · exact ⟨_, _, rfl⟩
        · exact hall e he

theorem replicateKey_extends (w : World) (vnode : Vnode) (key : List Byte) (val : value)
    (limit : Int) (tr : Trace) : tr <+: replicateKey w vnode key val limit tr := by
  unfold replicateKey
  split
  · exact List.prefix_refl _
  · dsimp only
    split
    · exact List.prefix_append _ _
    · rename_i remote_succs _
      have h1 := writeReplicas_extends w vnode key val remote_succs []
        (tr ++ [Event.FindRemoteSuccessors vnode limit])
      split
      · rename_i tr2 heq
        rw [heq] at h1
        exact (List.prefix_append _ _).trans h1
      · rename_i item_replicas tr2 heq
        rw [heq] at h1
        obtain ⟨metas, hm, _⟩ := updateMeta_extends w vnode key item_replicas item_replicas 0 tr2
        rw [hm]
        exact ((List.prefix_append _ _).trans h1).trans (List.prefix_append _ _)

theorem pushMeta_extends (w : World) (rkey : String) (rval : rvalue) :
    ∀ (chain : List Vnode) (idx : Nat) (inSync : replicaState) (tr : Trace),
      tr <+: pushMeta w rkey rval chain idx inSync tr := by
  intro chain
  induction chain with
  | nil => intro idx inSync tr; exact List.prefix_refl _
  | cons s rest ih =>
    intro idx inSync tr
    unfold pushMeta
    split
    · exact ih _ _ _
    · dsimp only
      split
      · exact (List.prefix_append _ _).trans (ih _ _ _)
      · exact (List.prefix_append _ _).trans (ih _ _ _)

theorem promoteBody_grows (w : World) (vnode : Vnode) : GrowsTrace (promoteBody w vnode) := by
  intro k rv dt tr dt1 tr1 h
  unfold promoteBody at h
  split at h
  · simp only [Option.some.injEq, Prod.mk.injEq] at h
    rw [← h.2]
  · split at h
    · simp only [Option.some.injEq, Prod.mk.injEq] at h
      rw [← h.2]; exact List.prefix_append _ _
    · split at h
      · exact absurd h (by simp)
      · split at h
        · dsimp only at h
          split at h
          · exact absurd h (by simp)
          · split at h
            · exact absurd h (by simp)
            · simp only [Option.some.injEq, Prod.mk.injEq] at h
              rw [← h.2]
              exact (List.prefix_append _ _).trans (replicateKey_extends _ _ _ _ _ _)
        · simp only [Option.some.injEq, Prod.mk.injEq] at h
          rw [← h.2]; exact List.prefix_append _ _

theorem demoteRemoteBody_grows (w : World) (vnode new_pred : Vnode) :
    GrowsTrace (demoteRemoteBody w vnode new_pred) := by
  intro k v dt tr dt1 tr1 h
  unfold demoteRemoteBody at h
  dsimp only at h
  split at h
  · split at h
    · exact absurd h (by simp)
    · split at h <;>
        · simp only [Option.some.injEq, Prod.mk.injEq] at h
          rw [← h.2]; exact List.prefix_append _ _
  · simp only [Option.some.injEq, Prod.mk.injEq] at h
    rw [← h.2]

theorem demoteLocalBody_grows (w : World) (vnode new_pred : Vnode) :
    GrowsTrace (demoteLocalBody w vnode new_pred) := by
  intro k v dt tr dt1 tr1 h
  unfold demoteLocalBody at h
  split at h
  · exact absurd h (by simp)
  · split at h
    · exact absurd h (by simp)
    · simp only [Option.some.injEq, Prod.mk.injEq] at h
      rw [← h.2]; exact pushMeta_extends _ _ _ _ _ _ _

/-! ## Lemmas: the loop bodies -/

theorem promoteBody_touches (w : World) (vnode : Vnode) :
    TouchesOwnKey (promoteBody w vnode) := by
  intro k rv dt tr dt1 tr1 h k' hk' o
  unfold promoteBody at h
  split at h
  · simp only [Option.some.injEq, Prod.mk.injEq] at h
    rw [← h.1]; exact ⟨rfl, rfl, rfl⟩
  · split at h
    · simp only [Option.some.injEq, Prod.mk.injEq] at h
      rw [← h.1]; exact ⟨rfl, rfl, rfl⟩
    · split at h
      · exact absurd h (by simp)
      · split at h
        · dsimp only at h
          split at h
          · exact absurd h (by simp)
          · rename_i table0 hset0
            split at h
            · exact absurd h (by simp)
            · rename_i table1 hset
              simp only [Option.some.injEq, Prod.mk.injEq] at h
              rw [← h.1]
              exact ⟨(getIn_setIn_other hset (Or.inr hk')).trans
                  (getIn_setIn_other hset0 (Or.inr hk')),
                getIn_deleteIn_other _ (Or.inr hk'), rfl⟩
        · simp only [Option.some.injEq, Prod.mk.injEq] at h
          rw [← h.1]
          exact ⟨rfl, getIn_deleteIn_other _ (Or.inr hk'), rfl⟩

theorem promoteBody_promotes (w : World) (vnode : Vnode) (k : String) (rv : rvalue)
    (dt : DTable) (tr : Trace) (dt1 : DTable) (tr1 : Trace) (s : Vnode) (rest : List Vnode)
    (hd : rv.depth = 0) (hl : w.Lookup tr 1 (w.KeyFromString k) = .ok (s :: rest))
    (hs : s.Id = vnode.Id) (h : promoteBody w vnode k rv dt tr = some (dt1, tr1)) :
    getIn dt1.table vnode.String k
        = some { Val := rv.Val, timestamp := rv.timestamp, isReplica := false, commited := true,
                 rstate := .replicaIncomplete, clean_key := [], replicaVnodes := [] }
      ∧ getIn dt1.rtable vnode.String k = none := by
  unfold promoteBody at h
  simp only [hd, ne_eq, not_true_eq_false, if_false, hl, hs, if_true] at h
  split at h
  · exact absurd h (by simp)
  · split at h
    · exact absurd h (by simp)
    · rename_i table1 hset
      simp only [Option.some.injEq, Prod.mk.injEq] at h
      rw [← h.1]
      exact ⟨getIn_setIn_same hset, getIn_deleteIn_same _ _ _⟩

theorem promoteBody_deflects (w : World) (vnode : Vnode) (k : String) (rv : rvalue)
    (dt : DTable) (tr : Trace) (dt1 : DTable) (tr1 : Trace) (s : Vnode) (rest : List Vnode)
    (hd : rv.depth = 0) (hl : w.Lookup tr 1 (w.KeyFromString k) = .ok (s :: rest))
    (hs : s.Id ≠ vnode.Id) (h : promoteBody w vnode k rv dt tr = some (dt1, tr1)) :
    dt1.table = dt.table ∧ getIn dt1.rtable vnode.String k = none := by
  unfold promoteBody at h
  simp only [hd, ne_eq, not_true_eq_false, if_false, hl, hs] at h
  simp only [Option.some.injEq, Prod.mk.injEq] at h
  rw [← h.1]
  exact ⟨rfl, getIn_deleteIn_same _ _ _⟩

/-- The loop body of `promote` does not panic when the primary table of the
vnode exists and no successful lookup is empty, and it leaves the primary
table in existence. -/
theorem promoteBody_total (w : World) (vnode : Vnode)
    (hring : ∀ tr n key, w.Lookup tr n key ≠ .ok []) (k : String) (rv : rvalue)
    (dt : DTable) (tr : Trace) (ht : (dt.table.lookup vnode.String).isSome) :
    ∃ dt1 tr1, promoteBody w vnode k rv dt tr = some (dt1, tr1)
      ∧ (dt1.table.lookup vnode.String).isSome := by
  unfold promoteBody
  split
  · exact ⟨_, _, rfl, ht⟩
  · split
    · exact ⟨_, _, rfl, ht⟩
    · rename_i succs hl
      split
      · exact absurd hl (hring _ _ _)
      · split
        · obtain ⟨m1, hm1⟩ := setIn_isSome ht k (rvalue2value rv)
          have ht1 : (m1.lookup vnode.String).isSome := by
            rw [lookup_isSome_setIn hm1]; exact ht
          obtain ⟨m2, hm2⟩ := setIn_isSome ht1 k { rvalue2value rv with commited := true }
          simp only [hm1, hm2]
          refine ⟨_, _, rfl, ?_⟩
          simp only [lookup_isSome_setIn hm2]
          exact ht1
        · exact ⟨_, _, rfl, ht⟩

theorem demoteRemoteBody_touches (w : World) (vnode new_pred : Vnode) :
    TouchesOwnKey (demoteRemoteBody w vnode new_pred) := by
  intro k v dt tr dt1 tr1 h k' hk' o
  unfold demoteRemoteBody at h
  dsimp only at h
  split at h
  · split at h
    · exact absurd h (by simp)
    · rename_i demoted1 hset
      have h' : ({ dt with demoted_table := demoted1,
                           table := deleteIn dt.table vnode.String k } : DTable) = dt1 := by
        split at h <;>
          · simp only [Option.some.injEq, Prod.mk.injEq] at h
            exact h.1
      rw [← h']
      exact ⟨getIn_deleteIn_other _ (Or.inr hk'), rfl, getIn_setIn_other hset (Or.inr hk')⟩
  · simp only [Option.some.injEq, Prod.mk.injEq] at h
    rw [← h.1]; exact ⟨rfl, rfl, rfl⟩

theorem demoteRemoteBody_in_range (w : World) (vnode new_pred : Vnode) (k : String) (v : value)
    (dt : DTable) (tr : Trace) (dt1 : DTable) (tr1 : Trace)
    (hb : w.Between vnode.Id new_pred.Id (w.KeyFromString k) true = true)
    (h : demoteRemoteBody w vnode new_pred k v dt tr = some (dt1, tr1)) :
    getIn dt1.table vnode.String k = none
      ∧ getIn dt1.demoted_table vnode.String k
          = some (value2demotedItem v new_pred (w.Now tr)) := by
  unfold demoteRemoteBody at h
  simp only [hb, if_true] at h
  split at h
  · exact absurd h (by simp)
  · rename_i demoted1 hset
    have h' : ({ dt with demoted_table := demoted1,
                         table := deleteIn dt.table vnode.String k } : DTable) = dt1 := by
      split at h <;>
        · simp only [Option.some.injEq, Prod.mk.injEq] at h
          exact h.1
    rw [← h']
    exact ⟨getIn_deleteIn_same _ _ _, getIn_setIn_same hset⟩

theorem demoteRemoteBody_total (w : World) (vnode new_pred : Vnode) (k : String) (v : value)
    (dt : DTable) (tr : Trace) (ht : (dt.demoted_table.lookup vnode.String).isSome) :
    ∃ dt1 tr1, demoteRemoteBody w vnode new_pred k v dt tr = some (dt1, tr1)
      ∧ (dt1.demoted_table.lookup vnode.String).isSome := by
  unfold demoteRemoteBody
  dsimp only
  split
  · obtain ⟨m1, hm1⟩ := setIn_isSome ht k (value2demotedItem v new_pred (w.Now tr))
    simp only [hm1]
    have hs : (m1.lookup vnode.String).isSome := by
      rw [lookup_isSome_setIn hm1]; exact ht
    split
    · exact ⟨_, _, rfl, hs⟩
    · exact ⟨_, _, rfl, hs⟩
  · exact ⟨_, _, rfl, ht⟩

theorem isLocal_eq_false (w : World) (new_pred : Vnode) (tr : Trace)
    (h : ∀ lvn ∈ w.MyVnodes tr, lvn.Host ≠ new_pred.Host) : isLocal w new_pred tr = false := by
  simp only [isLocal, List.any_eq_false, decide_eq_true_eq]
  exact h

theorem isLocal_eq_true (w : World) (new_pred : Vnode) (tr : Trace)
    (h : ∃ lvn ∈ w.MyVnodes tr, lvn.Host = new_pred.Host) : isLocal w new_pred tr = true := by
  simp only [isLocal, List.any_eq_true, decide_eq_true_eq]
  exact h

theorem demoteLocalBody_touches (w : World) (vnode new_pred : Vnode) :
    TouchesOwnKey (demoteLocalBody w vnode new_pred) := by
  intro k v dt tr dt1 tr1 h k' hk' o
  unfold demoteLocalBody at h
  split at h
  · exact absurd h (by simp)
  · split at h
    · exact absurd h (by simp)
    · rename_i rtable1 hset
      simp only [Option.some.injEq, Prod.mk.injEq] at h
      rw [← h.1]
      refine ⟨rfl, ?_, rfl⟩
      rw [getIn_deleteIn_other _ (Or.inr hk'), getIn_setIn_other hset (Or.inr hk')]

theorem demoteLocalBody_moves (w : World) (vnode new_pred : Vnode) (k : String) (rv : rvalue)
    (dt : DTable) (tr : Trace) (dt1 : DTable) (tr1 : Trace)
    (hne : vnode.String ≠ new_pred.String)
    (h : demoteLocalBody w vnode new_pred k rv dt tr = some (dt1, tr1)) :
    getIn dt1.rtable new_pred.String k
        = some { rv with replicaVnodes := rv.replicaVnodes.set rv.depth.toNat new_pred }
      ∧ getIn dt1.rtable vnode.String k = none
      ∧ 0 ≤ rv.depth ∧ rv.depth.toNat < rv.replicaVnodes.length := by
  unfold demoteLocalBody at h
  split at h
  · exact absurd h (by simp)
  · rename_i rv' hchain
    unfold setChain at hchain
    split at hchain
    · rename_i hvalid
      simp only [Option.some.injEq] at hchain
      subst hchain
      split at h
      · exact absurd h (by simp)
      · rename_i rtable1 hset
        simp only [Option.some.injEq, Prod.mk.injEq] at h
        rw [← h.1]
        refine ⟨?_, getIn_deleteIn_same _ _ _, hvalid.1, hvalid.2⟩
        rw [getIn_deleteIn_other _ (Or.inl (Ne.symm hne))]
        exact getIn_setIn_same hset
    · exact absurd hchain (by simp)

theorem demoteLocalBody_total (w : World) (vnode new_pred : Vnode) (k : String) (rv : rvalue)
    (dt : DTable) (tr : Trace) (hv : 0 ≤ rv.depth ∧ rv.depth.toNat < rv.replicaVnodes.length)
    (ht : (dt.rtable.lookup new_pred.String).isSome) :
    ∃ dt1 tr1, demoteLocalBody w vnode new_pred k rv dt tr = some (dt1, tr1)
      ∧ (dt1.rtable.lookup new_pred.String).isSome := by
  unfold demoteLocalBody
  simp only [setChain, hv, and_self, if_true]
  obtain ⟨m1, hm1⟩ := setIn_isSome ht k
    { rv with replicaVnodes := rv.replicaVnodes.set rv.depth.toNat new_pred }
  simp only [hm1]
  refine ⟨_, _, rfl, ?_⟩
  simp only [lookup_isSome_deleteIn, lookup_isSome_setIn hm1]
  exact ht

/-! ## Lemmas: what a run issued -/

theorem issued_append (tr new : Trace) : issued tr (tr ++ new) = new := by
  simp [issued]

theorem filter_isRemoteSet_setEvents (vnode : Vnode) (key : List Byte) (val : value)
    (succs : List Vnode) :
    (setEvents vnode key val succs).filter isRemoteSet = setEvents vnode key val succs := by
  apply List.filter_eq_self.mpr
  intro e he
  simp only [setEvents, List.mem_map] at he
  obtain ⟨s, _, rfl⟩ := he
  rfl

theorem filter_isRemoteSetMeta_setEvents (vnode : Vnode) (key : List Byte) (val : value)
    (succs : List Vnode) :
    (setEvents vnode key val succs).filter isRemoteSetMeta = [] := by
  apply List.filter_eq_nil_iff.mpr
  intro e he
  simp only [setEvents, List.mem_map] at he
  obtain ⟨s, _, rfl⟩ := he
  simp [isRemoteSetMeta]

theorem length_setEvents (vnode : Vnode) (key : List Byte) (val : value) (succs : List Vnode) :
    (setEvents vnode key val succs).length = succs.length := by
  simp [setEvents]

theorem length_metaEventsFrom (vnode : Vnode) (key : List Byte) (chain : List Vnode) (idx : Nat)
    (members : List Vnode) :
    (metaEventsFrom vnode key chain idx members).length = members.length := by
  simp [metaEventsFrom]

theorem getElem?_metaEventsFrom (vnode : Vnode) (key : List Byte) (chain : List Vnode) :
    ∀ (members : List Vnode) (idx i : Nat) (s : Vnode), members[i]? = some s →
      (metaEventsFrom vnode key chain idx members)[i]?
        = some (Event.remoteSetMeta s key (completeMeta vnode chain (idx + i))) := by
  intro members
  induction members with
  | nil => intro idx i s h; simp at h
  | cons m rest ih =>
    intro idx i s h
    cases i with
    | zero =>
      simp only [List.getElem?_cons_zero, Option.some.injEq] at h
      subst h
      simp [metaEventsFrom_cons]
    | succ i =>
      have h' : rest[i]? = some s := by simpa using h
      have := ih (idx + 1) i s h'
      have e : idx + (i + 1) = idx + 1 + i := by omega
      simpa [metaEventsFrom_cons, e] using this

/-! ## The wire codec -/

theorem tail_or_nil (p : List Byte) : (if 0 < p.length then p else []) = p := by
  cases p <;> simp

/-- C1 (amended). Wire round-trip for the six message types `Decode` has a
case for (Ping, Err, Join, Leave, ListVnodes, ListVnodesResp): when the
payload `p` deserializes to `m` as the message of that type,
`Decode (Encode t p)` succeeds with type `t`, data `p`, the typed payload `m`
and the handler of the type (none for ListVnodesResp). For the two other
enumerated types, Ack and Forward, `Decode (Encode t p)` fails with the
unknown-type error, whatever `p` is. -/
theorem C1_wire_round_trip (pb : PBDefs) (transport : ZMQTransport) (p : List Byte) :
    (∀ m, pb.UnmarshalPing p = .ok m →
        Decode pb transport (Encode transport pbPing p)
          = .ok ⟨pbPing, p, some (.ping m), some ⟨transport, .zmq_ping_handler⟩⟩)
    ∧ (∀ m, pb.UnmarshalErr p = .ok m →
        Decode pb transport (Encode transport pbErr p)
          = .ok ⟨pbErr, p, some (.err m), some ⟨transport, .zmq_error_handler⟩⟩)
    ∧ (∀ m, pb.UnmarshalJoin p = .ok m →
        Decode pb transport (Encode transport pbJoin p)
          = .ok ⟨pbJoin, p, some (.join m), some ⟨transport, .zmq_join_handler⟩⟩)
    ∧ (∀ m, pb.UnmarshalLeave p = .ok m →
        Decode pb transport (Encode transport pbLeave p)
          = .ok ⟨pbLeave, p, some (.leave m), some ⟨transport, .zmq_leave_handler⟩⟩)
    ∧ (∀ m, pb.UnmarshalListVnodes p = .ok m →
        Decode pb transport (Encode transport pbListVnodes p)
          = .ok ⟨pbListVnodes, p, some (.listVnodes m),
              some ⟨transport, .zmq_listVnodes_handler⟩⟩)
    ∧ (∀ m, pb.UnmarshalListVnodesResp p = .ok m →
        Decode pb transport (Encode transport pbListVnodesResp p)
          = .ok ⟨pbListVnodesResp, p, some (.listVnodesResp m), none⟩)
    ∧ Decode pb transport (Encode transport pbAck p) = .error (.unknownRequestType pbAck)
    ∧ Decode pb transport (Encode transport pbForward p)
        = .error (.unknownRequestType pbForward) := by
  refine ⟨?_, ?_, ?_, ?_, ?_, ?_, ?_, ?_⟩
  · intro m hm
    simp [Decode, Encode, tail_or_nil, hm]
  · intro m hm
    simp [Decode, Encode, tail_or_nil, hm, pbErr, pbPing]
  · intro m hm
    simp [Decode, Encode, tail_or_nil, hm, pbErr, pbPing, pbJoin]
  · intro m hm
    simp [Decode, Encode, tail_or_nil, hm, pbErr, pbPing, pbJoin, pbLeave]
  · intro m hm
    simp [Decode, Encode, tail_or_nil, hm, pbErr, pbPing, pbJoin, pbLeave, pbListVnodes]
  · intro m hm
    simp [Decode, Encode, tail_or_nil, hm, pbErr, pbPing, pbJoin, pbLeave, pbListVnodes,
      pbListVnodesResp]
  · simp [Decode, Encode, pbErr, pbPing, pbAck, pbJoin, pbLeave, pbListVnodes,
      pbListVnodesResp]
  · simp [Decode, Encode, pbErr, pbPing, pbForward, pbJoin, pbLeave, pbListVnodes,
      pbListVnodesResp]

/-- An instance of C1 (amended): a ping and a list-vnodes response of the
example protobuf layer come back from the wire. -/
theorem C1_wire_round_trip_witness :
    Decode toyPB ⟨30⟩ (Encode ⟨30⟩ pbPing [3])
        = .ok ⟨pbPing, [3], some (.ping (3 : Nat)), some ⟨⟨30⟩, .zmq_ping_handler⟩⟩
    ∧ Decode toyPB ⟨30⟩ (Encode ⟨30⟩ pbListVnodesResp [3, 4])
        = .ok ⟨pbListVnodesResp, [3, 4],
            some (.listVnodesResp [((3 : Byte), (4 : Byte))]), none⟩ :=
  ⟨(C1_wire_round_trip toyPB ⟨30⟩ [3]).1 _ rfl,
   (C1_wire_round_trip toyPB ⟨30⟩ [3, 4]).2.2.2.2.2.1 _ rfl⟩

/-- C1 as stated fails: the enumerated type Ack, encoded with an empty
payload, does not decode to a message; `Decode` answers with the unknown-type
error. -/
theorem C1_counterexample :
    Decode toyPB ⟨30⟩ (Encode ⟨30⟩ pbAck []) = .error (.unknownRequestType pbAck)
    ∧ ¬ ∃ m, Decode toyPB ⟨30⟩ (Encode ⟨30⟩ pbAck []) = .ok m := by
  have h : Decode toyPB ⟨30⟩ (Encode ⟨30⟩ pbAck []) = .error (.unknownRequestType pbAck) := rfl
  refine ⟨h, ?_⟩
  rintro ⟨m, hm⟩
  rw [h] at hm
  exact absurd hm (by simp)

/-- C10. Decoding an empty byte sequence fails: for every protobuf layer and
every transport state, `Decode` of the empty input returns no message and the
"data too short" error, with the length 0. -/
theorem C10_decode_empty (pb : PBDefs) (transport : ZMQTransport) :
    Decode pb transport [] = .error (.dataTooShort 0) := rfl

/-! ## Promotion -/

/-- C2. Promotion correctness: for a key `k` that the replica store of
`vnode` holds at depth 0 and for which the ring lookup `Lookup(1, k)`, asked
at any point of the run, succeeds with a first successor whose id is that of
`vnode`: when `promote` returns, `k` is in the primary table of `vnode`,
committed, not a replica, with the payload bytes and the timestamp of the
replica, and `k` is not in the replica store of `vnode`. Nothing is assumed
of `replicateKey` and its RPCs. And `promote` does return when `vnode` has a
primary table and no successful lookup has an empty answer. -/
theorem C2_promotion_correctness (w : World) (dt : DTable) (vnode : Vnode)
    (tr : Trace) (k : String) (rv : rvalue)
    (hk : getIn dt.rtable vnode.String k = some rv)
    (hd : rv.depth = 0)
    (hl : ∀ tr0, tr <+: tr0 →
        ∃ s rest, w.Lookup tr0 1 (w.KeyFromString k) = .ok (s :: rest) ∧ s.Id = vnode.Id) :
    (∀ dt' tr', promote w dt vnode tr = some (dt', tr') →
        getIn dt'.table vnode.String k
            = some { Val := rv.Val, timestamp := rv.timestamp, isReplica := false,
                     commited := true, rstate := .replicaIncomplete, clean_key := [],
                     replicaVnodes := [] }
          ∧ getIn dt'.rtable vnode.String k = none)
    ∧ ((dt.table.lookup vnode.String).isSome → (∀ tr0 n key, w.Lookup tr0 n key ≠ .ok []) →
        ∃ dt' tr', promote w dt vnode tr = some (dt', tr')) := by
  constructor
  · intro dt' tr' h
    obtain ⟨dt0, tr0, dt1, tr1, _, hp, hbody, hz, _⟩ :=
      rangeLoop_at_key (promoteBody_touches w vnode) (promoteBody_grows w vnode) k rv _
        dt tr dt' tr' (rangeOf_nodup _ _) ((mem_rangeOf _ _ _ _).mpr hk) h
    obtain ⟨s, rest, hs, hid⟩ := hl tr0 hp
    have := promoteBody_promotes w vnode k rv dt0 tr0 dt1 tr1 s rest hd hs hid hbody
    rw [(hz vnode.String).1, (hz vnode.String).2.1]
    exact this
  · intro ht hring
    exact rangeLoop_total (fun d => (d.table.lookup vnode.String).isSome) _ dt tr ht
      (fun k v _ dt0 tr0 hinv => promoteBody_total w vnode hring k v dt0 tr0 hinv)

/-- An instance of C2: in the example tables `vA` holds the first replica of
`a1`, whose successor is `vA`; `promote` returns and `a1` has moved to the
primary table. -/
theorem C2_promotion_correctness_witness :
    ∃ dt' tr', promote calmWorld exDT vA [] = some (dt', tr')
      ∧ getIn dt'.table vA.String "a1"
          = some { Val := [9], timestamp := 41, isReplica := false, commited := true,
                   rstate := .replicaIncomplete, clean_key := [], replicaVnodes := [] }
      ∧ getIn dt'.rtable vA.String "a1" = none := by
  have h := C2_promotion_correctness calmWorld exDT vA [] "a1" exRval (by decide) (by decide)
    (fun _ _ => ⟨vA, [], rfl, rfl⟩)
  obtain ⟨dt', tr', hp⟩ := h.2 (by decide) (by
    intro tr0 n key
    simp only [calmWorld, toyWorld]
    split_ifs <;> simp)
  exact ⟨dt', tr', hp, h.1 dt' tr' hp⟩

/-- C3 (amended). Promotion deflection: for a key `k` that the replica store
of `vnode` holds at depth 0 and for which the ring lookup, asked at any point
of the run, succeeds with a first successor whose id is not that of `vnode`:
when `promote` returns, `k` is not in the replica store of `vnode`, and the
primary table of `vnode` holds for `k` what it held before (so `k` is absent
from it when it was absent before). And `promote` does return when `vnode`
has a primary table and no successful lookup has an empty answer. -/
theorem C3_promotion_deflection (w : World) (dt : DTable) (vnode : Vnode)
    (tr : Trace) (k : String) (rv : rvalue)
    (hk : getIn dt.rtable vnode.String k = some rv)
    (hd : rv.depth = 0)
    (hl : ∀ tr0, tr <+: tr0 →
        ∃ s rest, w.Lookup tr0 1 (w.KeyFromString k) = .ok (s :: rest) ∧ s.Id ≠ vnode.Id) :
    (∀ dt' tr', promote w dt vnode tr = some (dt', tr') →
        getIn dt'.rtable vnode.String k = none
          ∧ getIn dt'.table vnode.String k = getIn dt.table vnode.String k)
    ∧ ((dt.table.lookup vnode.String).isSome → (∀ tr0 n key, w.Lookup tr0 n key ≠ .ok []) →
        ∃ dt' tr', promote w dt vnode tr = some (dt', tr')) := by
  constructor
  · intro dt' tr' h
    obtain ⟨dt0, tr0, dt1, tr1, ha, hp, hbody, hz, _⟩ :=
      rangeLoop_at_key (promoteBody_touches w vnode) (promoteBody_grows w vnode) k rv _
        dt tr dt' tr' (rangeOf_nodup _ _) ((mem_rangeOf _ _ _ _).mpr hk) h
    obtain ⟨s, rest, hs, hid⟩ := hl tr0 hp
    have := promoteBody_deflects w vnode k rv dt0 tr0 dt1 tr1 s rest hd hs hid hbody
    rw [(hz vnode.String).1, (hz vnode.String).2.1, this.1, (ha vnode.String).1]
    exact ⟨this.2, rfl⟩
  · intro ht hring
    exact rangeLoop_total (fun d => (d.table.lookup vnode.String).isSome) _ dt tr ht
      (fun k v _ dt0 tr0 hinv => promoteBody_total w vnode hring k v dt0 tr0 hinv)

/-- An instance of C3 (amended): in the example tables `vA` holds the first
replica of `b1`, whose successor is `vB`; `promote` returns, the replica is
gone and `b1`, which was not in the primary table, is still not in it. -/
theorem C3_promotion_deflection_witness :
    ∃ dt' tr', promote calmWorld exDT vA [] = some (dt', tr')
      ∧ getIn dt'.rtable vA.String "b1" = none
      ∧ getIn dt'.table vA.String "b1" = none := by
  have h := C3_promotion_deflection calmWorld exDT vA [] "b1" exRval (by decide) (by decide)
    (fun _ _ => ⟨vB, [], rfl, by decide⟩)
  obtain ⟨dt', tr', hp⟩ := h.2 (by decide) (by
    intro tr0 n key
    simp only [calmWorld, toyWorld]
    split_ifs <;> simp)
  obtain ⟨h1, h2⟩ := h.1 dt' tr' hp
  exact ⟨dt', tr', hp, h1, h2.trans (by decide)⟩

/-- C3 as stated fails: `vA` holds `b1` at depth 0 in its replica store, the
lookup for `b1` succeeds with the successor `vB`, whose id is not that of
`vA`, and after `promote` the key `b1` is still in the primary table of `vA`,
where it was before. -/
theorem C3_counterexample :
    getIn heldTwiceDT.rtable vA.String "b1" = some exRval
    ∧ exRval.depth = 0
    ∧ (∀ tr0, calmWorld.Lookup tr0 1 (calmWorld.KeyFromString "b1") = .ok [vB])
    ∧ vB.Id ≠ vA.Id
    ∧ (promote calmWorld heldTwiceDT vA []).map
          (fun r => (getIn r.1.table vA.String "b1", getIn r.1.rtable vA.String "b1"))
        = some (some exVal, none) :=
  ⟨by decide, by decide, fun _ => rfl, by decide, by decide⟩

/-! ## Demotion -/

/-- C4. Demotion range correctness, remote path: when no local vnode has the
host of `new_pred`, for a key `K` of the primary table of `vnode` with
`Between(vnode.Id, new_pred.Id, K, true)`: when `demote` returns, `K` is not
in the primary table of `vnode` and the demoted-item store of `vnode` holds
for `K` an item with the payload bytes, key and timestamp of the value, the
new master `new_pred` and some demotion time. The answers of the remote-set
RPCs are not constrained: the key is not put back when a send fails. And
`demote` does return when `vnode` has a demoted-item store. -/
theorem C4_demotion_range (w : World) (dt : DTable) (vnode new_pred : Vnode) (tr : Trace)
    (K : String) (val : value)
    (hrem : ∀ lvn ∈ w.MyVnodes tr, lvn.Host ≠ new_pred.Host)
    (hk : getIn dt.table vnode.String K = some val)
    (hb : w.Between vnode.Id new_pred.Id (w.KeyFromString K) true = true) :
    (∀ dt' tr', demote w dt vnode new_pred tr = some (dt', tr') →
        getIn dt'.table vnode.String K = none
          ∧ ∃ ts, getIn dt'.demoted_table vnode.String K
              = some { val := val.Val, clean_key := val.clean_key, timestamp := val.timestamp,
                       new_master := new_pred, replicaVnodes := val.replicaVnodes,
                       demoted_ts := ts })
    ∧ ((dt.demoted_table.lookup vnode.String).isSome →
        ∃ dt' tr', demote w dt vnode new_pred tr = some (dt', tr')) := by
  have hloc := isLocal_eq_false w new_pred tr hrem
  constructor
  · intro dt' tr' h
    simp only [demote, hloc] at h
    obtain ⟨dt0, tr0, dt1, tr1, _, _, hbody, hz, _⟩ :=
      rangeLoop_at_key (demoteRemoteBody_touches w vnode new_pred)
        (demoteRemoteBody_grows w vnode new_pred) K val _ dt tr dt' tr'
        (rangeOf_nodup _ _) ((mem_rangeOf _ _ _ _).mpr hk) h
    have := demoteRemoteBody_in_range w vnode new_pred K val dt0 tr0 dt1 tr1 hb hbody
    rw [(hz vnode.String).1, (hz vnode.String).2.2]
    exact ⟨this.1, w.Now tr0, this.2⟩
  · intro ht
    simp only [demote, hloc]
    exact rangeLoop_total (fun d => (d.demoted_table.lookup vnode.String).isSome) _ dt tr ht
      (fun k v _ dt0 tr0 hinv => demoteRemoteBody_total w vnode new_pred k v dt0 tr0 hinv)

/-- An instance of C4: the remote vnode `vD` becomes the predecessor of `vA`
and the key `a2` of `vA` lies in the range; `demote` returns and `a2` has
moved to the demoted-item store, also in a world where the send fails. -/
theorem C4_demotion_range_witness :
    ∃ dt' tr', demote (toyWorld [vB] (fun _ => true) (fun _ => true)) exDT vA vD []
          = some (dt', tr')
      ∧ getIn dt'.table vA.String "a2" = none
      ∧ ∃ ts, getIn dt'.demoted_table vA.String "a2"
          = some { val := [7, 7], clean_key := [97, 50], timestamp := 42, new_master := vD,
                   replicaVnodes := [vB, vC], demoted_ts := ts } := by
  have h := C4_demotion_range (toyWorld [vB] (fun _ => true) (fun _ => true)) exDT vA vD []
    "a2" exVal (by decide) (by decide) (by decide)
  obtain ⟨dt', tr', hp⟩ := h.2 (by decide)
  exact ⟨dt', tr', hp, h.1 dt' tr' hp⟩

/-- C5. Demotion chain rewrite, local path: when some local vnode has the
host of `new_pred`, for an entry `rv` that the replica store of `vnode` holds
under the key `k`: when `demote` returns, the replica store of `new_pred`
holds under `k` the entry with the chain position at the entry's own depth
set to `new_pred` and every other field as it was, and the replica store of
`vnode` no longer holds `k`. The two stores of which the claim speaks are two:
the id string of `new_pred`, which names its store, is not that of `vnode`.
The answers of the metadata-update RPCs are not constrained. And `demote`
does return when `new_pred` has a replica store and the depth of every entry
of `vnode` is a position of its chain. -/
theorem C5_demotion_chain_rewrite (w : World) (dt : DTable) (vnode new_pred : Vnode)
    (tr : Trace) (k : String) (rv : rvalue)
    (hloc : ∃ lvn ∈ w.MyVnodes tr, lvn.Host = new_pred.Host)
    (hne : vnode.String ≠ new_pred.String)
    (hk : getIn dt.rtable vnode.String k = some rv) :
    (∀ dt' tr', demote w dt vnode new_pred tr = some (dt', tr') →
        getIn dt'.rtable new_pred.String k
            = some { Val := rv.Val, timestamp := rv.timestamp, depth := rv.depth,
                     state := rv.state, master := rv.master,
                     replicaVnodes := rv.replicaVnodes.set rv.depth.toNat new_pred }
          ∧ 0 ≤ rv.depth
          ∧ (rv.replicaVnodes.set rv.depth.toNat new_pred)[rv.depth.toNat]? = some new_pred
          ∧ getIn dt'.rtable vnode.String k = none)
    ∧ ((dt.rtable.lookup new_pred.String).isSome →
        (∀ k0 rv0, getIn dt.rtable vnode.String k0 = some rv0 →
          0 ≤ rv0.depth ∧ rv0.depth.toNat < rv0.replicaVnodes.length) →
        ∃ dt' tr', demote w dt vnode new_pred tr = some (dt', tr')) := by
  have hl := isLocal_eq_true w new_pred tr hloc
  constructor
  · intro dt' tr' h
    simp only [demote, hl, if_true] at h
    obtain ⟨dt0, tr0, dt1, tr1, _, _, hbody, hz, _⟩ :=
      rangeLoop_at_key (demoteLocalBody_touches w vnode new_pred)
        (demoteLocalBody_grows w vnode new_pred) k rv _ dt tr dt' tr'
        (rangeOf_nodup _ _) ((mem_rangeOf _ _ _ _).mpr hk) h
    obtain ⟨h1, h2, h3, h4⟩ :=
      demoteLocalBody_moves w vnode new_pred k rv dt0 tr0 dt1 tr1 hne hbody
    rw [(hz new_pred.String).2.1, (hz vnode.String).2.1]
    refine ⟨h1, h3, ?_, h2⟩
    simp [List.getElem?_set, h4]
  · intro ht hvalid
    simp only [demote, hl, if_true]
    exact rangeLoop_total (fun d => (d.rtable.lookup new_pred.String).isSome) _ dt tr ht
      (fun k v hm dt0 tr0 hinv =>
        demoteLocalBody_total w vnode new_pred k v dt0 tr0
          (hvalid k v ((mem_rangeOf _ _ _ _).mp hm)) hinv)

/-- An instance of C5: the local vnode `vA2` becomes the
predecessor of `vA`; `demote` returns, also in a world where every metadata
update fails, and the entry of `a1` is in the store of `vA2` with `vA2` at
depth 0 of its chain. -/
theorem C5_demotion_chain_rewrite_witness :
    ∃ dt' tr', demote (toyWorld [vB] (fun _ => true) (fun _ => true)) exDT vA vA2 []
          = some (dt', tr')
      ∧ getIn dt'.rtable vA2.String "a1"
          = some { Val := [9], timestamp := 41, depth := 0, state := .replicaComplete,
                   master := vD, replicaVnodes := [vA2, vC] }
      ∧ getIn dt'.rtable vA.String "a1" = none := by
  have h := C5_demotion_chain_rewrite (toyWorld [vB] (fun _ => true) (fun _ => true)) exDT vA
    vA2 [] "a1" exRval ⟨vA, by decide, by decide⟩ (by decide) (by decide)
  obtain ⟨dt', tr', hp⟩ := h.2 (by decide) (by
    intro k0 rv0 hk0
    have hm := (mem_rangeOf exDT.rtable vA.String k0 rv0).mpr hk0
    have hall : ∀ e ∈ rangeOf exDT.rtable vA.String,
        0 ≤ e.2.depth ∧ e.2.depth.toNat < e.2.replicaVnodes.length := by decide
    exact hall _ hm)
  obtain ⟨h1, _, _, h4⟩ := h.1 dt' tr' hp
  exact ⟨dt', tr', hp, h1, h4⟩

/-- When the new predecessor is the vnode itself the two stores are one, and
the entry that the loop writes is the entry it deletes: `vA` is hosted on the
local node, and after `demote(vA, vA)` the entry that the replica store of
`vA` held under `a1` is in the replica store of no vnode. -/
theorem demote_onto_own_store :
    (∃ lvn ∈ calmWorld.MyVnodes [], lvn.Host = vA.Host)
    ∧ getIn exDT.rtable vA.String "a1" = some exRval
    ∧ (demote calmWorld exDT vA vA []).map
          (fun r => (getIn r.1.rtable vA.String "a1", getIn r.1.rtable vA2.String "a1"))
        = some (none, none) :=
  ⟨⟨vA, by decide, rfl⟩, by decide, by decide⟩

/-! ## The replicator -/

/-- C6 (amended). Replication fan-out: when `vnode` has a handler, its
`FindRemoteSuccessors(limit)` succeeds with the successors `succs`, and every
replica-set RPC goes through, `replicateKey` sends one replica-set RPC for
each successor returned, in the order returned, each for the given key, and
no other replica-set RPC: as many as there are successors returned, which is
`limit` only when that many came back. -/
theorem C6_replication_fan_out (w : World) (vnode : Vnode) (key : List Byte) (val : value)
    (limit : Int) (tr : Trace) (handler : VnodeHandler) (succs : List Vnode)
    (hh : (w.GetVnodeHandler tr vnode).1 = some handler)
    (hs : handler.FindRemoteSuccessors tr limit = .ok succs)
    (hok : ∀ i, i < succs.length → setError w vnode key val limit succs tr i = none) :
    tr <+: replicateKey w vnode key val limit tr
    ∧ (issued tr (replicateKey w vnode key val limit tr)).filter isRemoteSet
        = succs.map (fun succ =>
            Event.remoteSet vnode succ key
              { Val := val.Val, timestamp := val.timestamp, isReplica := true,
                commited := false, rstate := .replicaIncomplete, clean_key := [],
                replicaVnodes := [] }
              1 false)
    ∧ ((issued tr (replicateKey w vnode key val limit tr)).filter isRemoteSet).length
        = succs.length := by
  have hrun := replicateKey_sets_ok w vnode key val limit tr handler succs hh hs hok
  obtain ⟨metas, hm, hall⟩ := updateMeta_extends w vnode key succs succs 0
    (tr ++ Event.FindRemoteSuccessors vnode limit :: setEvents vnode key val succs)
  have hmetas : metas.filter isRemoteSet = [] := by
    apply List.filter_eq_nil_iff.mpr
    intro e he
    obtain ⟨t, r, rfl⟩ := hall e he
    simp [isRemoteSet]
  have hissued : (issued tr (replicateKey w vnode key val limit tr)).filter isRemoteSet
      = setEvents vnode key val succs := by
    rw [hrun, hm, List.append_assoc, issued_append]
    simp only [List.cons_append, List.filter_cons, isRemoteSet, List.filter_append,
      filter_isRemoteSet_setEvents, hmetas, List.append_nil]
    simp
  refine ⟨replicateKey_extends _ _ _ _ _ _, ?_, ?_⟩
  · rw [hissued]; rfl
  · rw [hissued, length_setEvents]

/-- An instance of C6 (amended): two successors come back for the limit 2 and
both are sent the replica. -/
theorem C6_replication_fan_out_witness :
    (issued [] (replicateKey calmWorld vA [1] exVal 2 [])).filter isRemoteSet
        = [Event.remoteSet vA vB [1]
            { Val := [7, 7], timestamp := 42, isReplica := true, commited := false,
              rstate := .replicaIncomplete, clean_key := [], replicaVnodes := [] } 1 false,
           Event.remoteSet vA vC [1]
            { Val := [7, 7], timestamp := 42, isReplica := true, commited := false,
              rstate := .replicaIncomplete, clean_key := [], replicaVnodes := [] } 1 false] :=
  (C6_replication_fan_out calmWorld vA [1] exVal 2 []
    ⟨fun _ limit => .ok ([vB, vC].take limit.toNat)⟩ [vB, vC] rfl rfl (by decide)).2.1

/-- C6 as stated fails: `vA` has a handler, asked for 2 successors it returns
the one remote vnode there is, the replica-set RPC to it goes through, and
`replicateKey` with the limit 2 sends 1 replica-set RPC, not 2. -/
theorem C6_counterexample :
    ((smallWorld.GetVnodeHandler [] vA).1.map fun h => h.FindRemoteSuccessors [] 2)
        = some (.ok [vB])
    ∧ setError smallWorld vA [1] exVal 2 [vB] [] 0 = none
    ∧ ((issued [] (replicateKey smallWorld vA [1] exVal 2 [])).filter isRemoteSet).length = 1
    ∧ ((issued [] (replicateKey smallWorld vA [1] exVal 2 [])).filter isRemoteSet).length ≠ 2 :=
  ⟨rfl, by decide, by decide, by decide⟩

/-- C7 (amended). Replication failure: when the replica-set RPC to the
successor at position `j` (the `j+1`-th) is the first to fail, `replicateKey`
sends no metadata-update RPC at all; the `j` successors already written get
none. -/
theorem C7_replication_failure_no_metadata (w : World) (vnode : Vnode) (key : List Byte)
    (val : value) (limit : Int) (tr : Trace) (handler : VnodeHandler) (succs : List Vnode)
    (j : Nat)
    (hh : (w.GetVnodeHandler tr vnode).1 = some handler)
    (hs : handler.FindRemoteSuccessors tr limit = .ok succs)
    (hj : j < succs.length)
    (hbefore : ∀ i, i < j → setError w vnode key val limit succs tr i = none)
    (hfail : setError w vnode key val limit succs tr j ≠ none) :
    (issued tr (replicateKey w vnode key val limit tr)).filter isRemoteSetMeta = [] := by
  rw [replicateKey_set_fails w vnode key val limit tr handler succs j hh hs hj hbefore hfail,
    issued_append]
  simp [List.filter_cons, isRemoteSetMeta, filter_isRemoteSetMeta_setEvents]

/-- An instance of C7 (amended): the send to the second successor fails and
no metadata update is sent. -/
theorem C7_replication_failure_no_metadata_witness :
    (issued [] (replicateKey lossyWorld vA [1] exVal 2 [])).filter isRemoteSetMeta = [] :=
  C7_replication_failure_no_metadata lossyWorld vA [1] exVal 2 []
    ⟨fun _ limit => .ok ([vB, vC].take limit.toNat)⟩ [vB, vC] 1 rfl rfl (by decide)
    (by decide) (by decide)

/-- C7 as stated fails: the replica-set RPC to the second successor (`k = 2`)
is the first to fail, and the number of metadata-update RPCs sent is 0, not
`k - 1 = 1`: the successor already written receives none. -/
theorem C7_counterexample :
    ((lossyWorld.GetVnodeHandler [] vA).1.map fun h => h.FindRemoteSuccessors [] 2)
        = some (.ok [vB, vC])
    ∧ setError lossyWorld vA [1] exVal 2 [vB, vC] [] 0 = none
    ∧ setError lossyWorld vA [1] exVal 2 [vB, vC] [] 1 ≠ none
    ∧ ((issued [] (replicateKey lossyWorld vA [1] exVal 2 [])).filter isRemoteSetMeta).length
        = 0
    ∧ ((issued [] (replicateKey lossyWorld vA [1] exVal 2 [])).filter isRemoteSetMeta).length
        ≠ 2 - 1 :=
  ⟨rfl, by decide, by decide, by decide, by decide⟩

/-- C8. Replicator abort: when the replica-set RPC to the successor at
position `j` (the `k`-th, `k = j + 1`) is the first to fail, the calls
`replicateKey` makes are the query to the handler and then the replica-set
RPCs to the first `k` successors, in order, and nothing else: no send to a
later successor, no second call to a successor already written, no call of
any kind after the failing one. -/
theorem C8_replicator_abort (w : World) (vnode : Vnode) (key : List Byte) (val : value)
    (limit : Int) (tr : Trace) (handler : VnodeHandler) (succs : List Vnode) (j : Nat)
    (hh : (w.GetVnodeHandler tr vnode).1 = some handler)
    (hs : handler.FindRemoteSuccessors tr limit = .ok succs)
    (hj : j < succs.length)
    (hbefore : ∀ i, i < j → setError w vnode key val limit succs tr i = none)
    (hfail : setError w vnode key val limit succs tr j ≠ none) :
    replicateKey w vnode key val limit tr
      = tr ++ Event.FindRemoteSuccessors vnode limit ::
          (succs.take (j + 1)).map (fun succ =>
            Event.remoteSet vnode succ key
              { Val := val.Val, timestamp := val.timestamp, isReplica := true,
                commited := false, rstate := .replicaIncomplete, clean_key := [],
                replicaVnodes := [] }
              1 false) :=
  replicateKey_set_fails w vnode key val limit tr handler succs j hh hs hj hbefore hfail

/-- An instance of C8: of three successors the second fails; the first two are
sent to and the third is not. -/
theorem C8_replicator_abort_witness :
    replicateKey (toyWorld [vB, vC, vD] (fun t => decide (t = vC)) (fun _ => false))
        vA [1] exVal 3 []
      = [Event.FindRemoteSuccessors vA 3,
         Event.remoteSet vA vB [1]
           { Val := [7, 7], timestamp := 42, isReplica := true, commited := false,
             rstate := .replicaIncomplete, clean_key := [], replicaVnodes := [] } 1 false,
         Event.remoteSet vA vC [1]
           { Val := [7, 7], timestamp := 42, isReplica := true, commited := false,
             rstate := .replicaIncomplete, clean_key := [], replicaVnodes := [] } 1 false] :=
  C8_replicator_abort (toyWorld [vB, vC, vD] (fun t => decide (t = vC)) (fun _ => false))
    vA [1] exVal 3 [] ⟨fun _ limit => .ok ([vB, vC, vD].take limit.toNat)⟩ [vB, vC, vD] 1
    rfl rfl (by decide) (by decide) (by decide)

/-- C9. Replicator metadata: when the handler returns `succs` and all the
replica-set RPCs go through, the metadata-update RPCs are `metaEvents`: the
one at position `i` goes to successor `i` and carries depth `i`, state
Complete, master `vnode` and the chain of all the successors, and there is
one for each successor. When every one of them goes through, `replicateKey`
sends them all, in chain order, after the replica-set RPCs; when the one to
successor `j` is the first to fail, it sends those to the successors `0..j`
and none after. -/
theorem C9_replicator_metadata (w : World) (vnode : Vnode) (key : List Byte) (val : value)
    (limit : Int) (tr : Trace) (handler : VnodeHandler) (succs : List Vnode)
    (hh : (w.GetVnodeHandler tr vnode).1 = some handler)
    (hs : handler.FindRemoteSuccessors tr limit = .ok succs)
    (hok : ∀ i, i < succs.length → setError w vnode key val limit succs tr i = none) :
    (∀ (i : Nat) (s : Vnode), succs[i]? = some s →
        (metaEvents vnode key succs)[i]?
          = some (Event.remoteSetMeta s key
              { Val := [], timestamp := 0, depth := (i : Int), state := .replicaComplete,
                master := vnode, replicaVnodes := succs }))
    ∧ (metaEvents vnode key succs).length = succs.length
    ∧ ((∀ i, i < succs.length → metaError w vnode key val limit succs tr i = none) →
        replicateKey w vnode key val limit tr
          = tr ++ Event.FindRemoteSuccessors vnode limit ::
              (setEvents vnode key val succs ++ metaEvents vnode key succs))
    ∧ (∀ j, j < succs.length →
        (∀ i, i < j → metaError w vnode key val limit succs tr i = none) →
        metaError w vnode key val limit succs tr j ≠ none →
        replicateKey w vnode key val limit tr
          = tr ++ Event.FindRemoteSuccessors vnode limit ::
              (setEvents vnode key val succs ++ (metaEvents vnode key succs).take (j + 1))) := by
  have hrun := replicateKey_sets_ok w vnode key val limit tr handler succs hh hs hok
  refine ⟨?_, length_metaEventsFrom _ _ _ _ _, ?_, ?_⟩
  · intro i s hi
    have := getElem?_metaEventsFrom vnode key succs succs 0 i s hi
    simpa [metaEvents, completeMeta] using this
  · intro hmeta
    rw [hrun, updateMeta_ok w vnode key succs succs 0 _ (by
      intro i s hi
      have hlt : i < succs.length := (List.getElem?_eq_some_iff.mp hi).1
      have := hmeta i hlt
      simpa [metaError, metaEvents, hi, List.append_assoc] using this)]
    simp [metaEvents, List.append_assoc]
  · intro j hj hbefore hfail
    have hjs : succs[j]? = some succs[j] := List.getElem?_eq_getElem hj
    rw [hrun, updateMeta_fail w vnode key succs succs 0 _ j succs[j] hjs (by
      intro i s hij hi
      have := hbefore i hij
      simpa [metaError, metaEvents, hi, List.append_assoc] using this) (by
      simpa [metaError, metaEvents, hjs, List.append_assoc] using hfail)]
    simp [metaEvents, List.append_assoc]

/-- An instance of C9: with two successors and every call going through, two
metadata updates follow the two sends, with the depths 0 and 1; when the
update to the first successor fails, it is the only one sent. -/
theorem C9_replicator_metadata_witness :
    issued [] (replicateKey calmWorld vA [1] exVal 2 [])
        = Event.FindRemoteSuccessors vA 2 ::
            (setEvents vA [1] exVal [vB, vC] ++
              [Event.remoteSetMeta vB [1]
                 { Val := [], timestamp := 0, depth := 0, state := .replicaComplete,
                   master := vA, replicaVnodes := [vB, vC] },
               Event.remoteSetMeta vC [1]
                 { Val := [], timestamp := 0, depth := 1, state := .replicaComplete,
                   master := vA, replicaVnodes := [vB, vC] }])
    ∧ issued [] (replicateKey metaLossyWorld vA [1] exVal 2 [])
        = Event.FindRemoteSuccessors vA 2 ::
            (setEvents vA [1] exVal [vB, vC] ++
              [Event.remoteSetMeta vB [1]
                 { Val := [], timestamp := 0, depth := 0, state := .replicaComplete,
                   master := vA, replicaVnodes := [vB, vC] }]) := by
  have h1 := (C9_replicator_metadata calmWorld vA [1] exVal 2 []
    ⟨fun _ limit => .ok ([vB, vC].take limit.toNat)⟩ [vB, vC] rfl rfl (by decide)).2.2.1
    (by decide)
  have h2 := (C9_replicator_metadata metaLossyWorld vA [1] exVal 2 []
    ⟨fun _ limit => .ok ([vB, vC].take limit.toNat)⟩ [vB, vC] rfl rfl (by decide)).2.2.2
    0 (by decide) (by decide) (by decide)
  constructor
  · rw [h1]; rfl
  · rw [h2]; rfl

/-! ## Lemmas: the calls of a run -/

/-- What every call of every run of the body satisfies, every call of the
loop satisfies for one of the entries. -/
theorem rangeLoop_issued {α : Type}
    {body : String → α → DTable → Trace → Option (DTable × Trace)}
    (P : String → α → Event → Prop)
    (hb : ∀ k v dt tr dt1 tr1, body k v dt tr = some (dt1, tr1) →
      ∃ evs, tr1 = tr ++ evs ∧ ∀ e ∈ evs, P k v e) :
    ∀ (es : List (String × α)) (dt : DTable) (tr : Trace) (dt' : DTable) (tr' : Trace),
      rangeLoop body es dt tr = some (dt', tr') →
      ∃ evs, tr' = tr ++ evs ∧ ∀ e ∈ evs, ∃ k v, (k, v) ∈ es ∧ P k v e := by
  intro es
  induction es with
  | nil =>
    intro dt tr dt' tr' h
    simp only [rangeLoop, Option.some.injEq, Prod.mk.injEq] at h
    exact ⟨[], by simp [h.2], by simp⟩
  | cons e0 rest ih =>
    obtain ⟨k0, v0⟩ := e0
    intro dt tr dt' tr' h
    unfold rangeLoop at h
    cases hb0 : body k0 v0 dt tr with
    | none => simp [hb0] at h
    | some r =>
      obtain ⟨dt1, tr1⟩ := r
      simp only [hb0] at h
      obtain ⟨evs0, h0, hP0⟩ := hb k0 v0 dt tr dt1 tr1 hb0
      obtain ⟨evs1, h1, hP1⟩ := ih dt1 tr1 dt' tr' h
      refine ⟨evs0 ++ evs1, by rw [h1, h0, List.append_assoc], ?_⟩
      intro e he
      rcases List.mem_append.mp he with he | he
      · exact ⟨k0, v0, List.mem_cons_self _ _, hP0 e he⟩
      · obtain ⟨k, v, hm, hp⟩ := hP1 e he
        exact ⟨k, v, List.mem_cons_of_mem _ hm, hp⟩

/-- A property of the tables that the body keeps, the loop keeps. -/
theorem rangeLoop_invariant {α : Type}
    {body : String → α → DTable → Trace → Option (DTable × Trace)} (R : DTable → Prop)
    (hb : ∀ k v dt tr dt1 tr1, body k v dt tr = some (dt1, tr1) → R dt → R dt1) :
    ∀ (es : List (String × α)) (dt : DTable) (tr : Trace) (dt' : DTable) (tr' : Trace),
      rangeLoop body es dt tr = some (dt', tr') → R dt → R dt' := by
  intro es
  induction es with
  | nil =>
    intro dt tr dt' tr' h hR
    simp only [rangeLoop, Option.some.injEq, Prod.mk.injEq] at h
    rw [← h.1]; exact hR
  | cons e0 rest ih =>
    obtain ⟨k0, v0⟩ := e0
    intro dt tr dt' tr' h hR
    unfold rangeLoop at h
    cases hb0 : body k0 v0 dt tr with
    | none => simp [hb0] at h
    | some r =>
      obtain ⟨dt1, tr1⟩ := r
      simp only [hb0] at h
      exact ih dt1 tr1 dt' tr' h (hb k0 v0 dt tr dt1 tr1 hb0 hR)

/-- When the calls of a run of the body, seen through `f`, are `g` of the
entry, the calls of the loop are those of the entries, in order. -/
theorem rangeLoop_issued_map {α β : Type}
    {body : String → α → DTable → Trace → Option (DTable × Trace)}
    (f : Event → β) (g : String → α → List β)
    (hb : ∀ k v dt tr dt1 tr1, body k v dt tr = some (dt1, tr1) →
      ∃ evs, tr1 = tr ++ evs ∧ evs.map f = g k v) :
    ∀ (es : List (String × α)) (dt : DTable) (tr : Trace) (dt' : DTable) (tr' : Trace),
      rangeLoop body es dt tr = some (dt', tr') →
      ∃ evs, tr' = tr ++ evs ∧ evs.map f = es.flatMap fun e => g e.1 e.2 := by
  intro es
  induction es with
  | nil =>
    intro dt tr dt' tr' h
    simp only [rangeLoop, Option.some.injEq, Prod.mk.injEq] at h
    exact ⟨[], by simp [h.2], by simp⟩
  | cons e0 rest ih =>
    obtain ⟨k0, v0⟩ := e0
    intro dt tr dt' tr' h
    unfold rangeLoop at h
    cases hb0 : body k0 v0 dt tr with
    | none => simp [hb0] at h
    | some r =>
      obtain ⟨dt1, tr1⟩ := r
      simp only [hb0] at h
      obtain ⟨evs0, h0, hP0⟩ := hb k0 v0 dt tr dt1 tr1 hb0
      obtain ⟨evs1, h1, hP1⟩ := ih dt1 tr1 dt' tr' h
      refine ⟨evs0 ++ evs1, by rw [h1, h0, List.append_assoc], ?_⟩
      simp [List.flatMap_cons, hP0, hP1]

theorem not_mem_keys_rangeOf {α : Type} (m : GoMap (GoMap α)) (o k : String)
    (h : getIn m o k = none) : k ∉ (rangeOf m o).map Prod.fst := by
  intro hmem
  obtain ⟨⟨k1, v⟩, hm, hk1⟩ := List.mem_map.mp hmem
  simp only at hk1
  subst hk1
  rw [(mem_rangeOf m o k1 v).mp hm] at h
  exact absurd h (by simp)

theorem writeReplicas_events (w : World) (vnode : Vnode) (key : List Byte) (val : value) :
    ∀ (succs acc : List Vnode) (tr : Trace),
      ∃ evs, (writeReplicas w vnode key val succs acc tr).2 = tr ++ evs
        ∧ ∀ e ∈ evs, eventKey e = some key := by
  intro succs
  induction succs with
  | nil => intro acc tr; exact ⟨[], by simp [writeReplicas], by simp⟩
  | cons s rest ih =>
    intro acc tr
    unfold writeReplicas
    dsimp only
    split
    · exact ⟨[_], rfl, by simp [eventKey]⟩
    · obtain ⟨evs, hm, hall⟩ := ih (acc ++ [s])
        (tr ++ [Event.remoteSet vnode s key (replicaCopy val) 1 false])
      refine ⟨Event.remoteSet vnode s key (replicaCopy val) 1 false :: evs, ?_, ?_⟩
      · rw [hm]; simp
      · intro e he
        rcases List.mem_cons.mp he with rfl | he
        · rfl
        · exact hall e he

theorem replicateKey_events (w : World) (vnode : Vnode) (key : List Byte) (val : value)
    (limit : Int) (tr : Trace) :
    ∃ evs, replicateKey w vnode key val limit tr = tr ++ evs
      ∧ ∀ e ∈ evs, eventKey e = none ∨ eventKey e = some key := by
  unfold replicateKey
  split
  · exact ⟨[], by simp, by simp⟩
  · dsimp only
    split
    · exact ⟨[_], rfl, by simp [eventKey]⟩
    · rename_i remote_succs _
      obtain ⟨evs1, h1, hall1⟩ := writeReplicas_events w vnode key val remote_succs []
        (tr ++ [Event.FindRemoteSuccessors vnode limit])
      split
      · rename_i tr2 heq
        rw [heq] at h1
        simp only at h1
        refine ⟨Event.FindRemoteSuccessors vnode limit :: evs1, by rw [h1]; simp, ?_⟩
        intro e he
        rcases List.mem_cons.mp he with rfl | he
        · exact Or.inl rfl
        · exact Or.inr (hall1 e he)
      · rename_i item_replicas tr2 heq
        rw [heq] at h1
        simp only at h1
        obtain ⟨metas, hm, hall2⟩ :=
          updateMeta_extends w vnode key item_replicas item_replicas 0 tr2
        refine ⟨Event.FindRemoteSuccessors vnode limit :: (evs1 ++ metas),
          by rw [hm, h1]; simp, ?_⟩
        intro e he
        rcases List.mem_cons.mp he with rfl | he
        · exact Or.inl rfl
        · rcases List.mem_append.mp he with he | he
          · exact Or.inr (hall1 e he)
          · obtain ⟨t, r, rfl⟩ := hall2 e he
            exact Or.inr rfl

/-! ## Lemmas: `promote`, key by key -/

theorem promoteBody_skips (w : World) (vnode : Vnode) (k : String) (rv : rvalue)
    (hd : rv.depth ≠ 0) (dt : DTable) (tr : Trace) :
    promoteBody w vnode k rv dt tr = some (dt, tr) := by
  simp [promoteBody, hd]

theorem promoteBody_lookup_fails (w : World) (vnode : Vnode) (k : String) (rv : rvalue)
    (dt : DTable) (tr : Trace) (err : String) (hd : rv.depth = 0)
    (hl : w.Lookup tr 1 (w.KeyFromString k) = .error err) :
    promoteBody w vnode k rv dt tr = some (dt, tr ++ [Event.Lookup 1 (w.KeyFromString k)]) := by
  simp [promoteBody, hd, hl]

theorem promoteBody_events (w : World) (vnode : Vnode) (k : String) (rv : rvalue)
    (dt : DTable) (tr : Trace) (dt1 : DTable) (tr1 : Trace)
    (h : promoteBody w vnode k rv dt tr = some (dt1, tr1)) :
    ∃ evs, tr1 = tr ++ evs
      ∧ ∀ e ∈ evs, rv.depth = 0 ∧ (eventKey e = none ∨ eventKey e = some (w.KeyFromString k)) := by
  unfold promoteBody at h
  split at h
  · simp only [Option.some.injEq, Prod.mk.injEq] at h
    exact ⟨[], by simp [h.2], by simp⟩
  · rename_i hd
    have hd0 : rv.depth = 0 := by simpa using hd
    split at h
    · simp only [Option.some.injEq, Prod.mk.injEq] at h
      exact ⟨[_], h.2.symm, by simp [eventKey, hd0]⟩
    · split at h
      · exact absurd h (by simp)
      · split at h
        · dsimp only at h
          split at h
          · exact absurd h (by simp)
          · split at h
            · exact absurd h (by simp)
            · simp only [Option.some.injEq, Prod.mk.injEq] at h
              obtain ⟨evs, he, hall⟩ := replicateKey_events w vnode (w.KeyFromString k)
                { rvalue2value rv with commited := true } w.Replicas
                (tr ++ [Event.Lookup 1 (w.KeyFromString k)])
              refine ⟨Event.Lookup 1 (w.KeyFromString k) :: evs, ?_, ?_⟩
              · rw [← h.2, he]; simp
              · intro e hmem
                rcases List.mem_cons.mp hmem with rfl | hmem
                · exact ⟨hd0, Or.inr rfl⟩
                · exact ⟨hd0, hall e hmem⟩
        · simp only [Option.some.injEq, Prod.mk.injEq] at h
          exact ⟨[_], h.2.symm, by simp [eventKey, hd0]⟩

theorem kerase_eq_filter_of_nodupKeys {α : Type} (k : String) :
    ∀ (l : List (Sigma fun _ : String => α)), l.NodupKeys →
      List.kerase k l = l.filter fun x => decide (x.1 ≠ k) := by
  intro l
  induction l with
  | nil => intro _; rfl
  | cons s rest ih =>
    intro hnd
    rw [List.nodupKeys_cons] at hnd
    by_cases hk : k = s.1
    · rw [List.kerase_cons_eq hk]
      have hall : ∀ x ∈ rest, decide (x.1 ≠ k) = true := by
        intro x hx
        simp only [ne_eq, decide_eq_true_eq]
        intro hxk
        exact hnd.1 (List.mem_keys.mpr ⟨x.2, by
          have : (⟨s.1, x.2⟩ : Sigma fun _ : String => α) = x := by
            cases x; simp only at hxk; subst hxk; subst hk; rfl
          rw [this]; exact hx⟩)
      simp only [List.filter_cons, ne_eq, hk, not_true_eq_false, decide_False,
        Bool.false_eq_true, if_false]
      exact (List.filter_eq_self.mpr (by simpa [hk] using hall)).symm
    · rw [List.kerase_cons_ne hk, ih hnd.2]
      have hk' : ¬ s.1 = k := fun h => hk h.symm
      simp [List.filter_cons, hk']

theorem rangeOf_deleteIn {α : Type} (m : GoMap (GoMap α)) (o k : String) :
    rangeOf (deleteIn m o k) o = (rangeOf m o).filter fun e => decide (e.1 ≠ k) := by
  unfold deleteIn rangeOf
  cases hl : m.lookup o with
  | none => simp [hl]
  | some inner =>
    simp only [AList.lookup_insert]
    have he : (inner.erase k).entries = inner.entries.filter fun x => decide (x.1 ≠ k) :=
      kerase_eq_filter_of_nodupKeys k inner.entries inner.nodupKeys
    rw [he, List.filter_map]
    rfl

/-- The loop body of `promote` reads of the tables the primary tables only:
from states with the same primary tables it panics or not alike, and gives
the same primary tables and the same trace. -/
theorem promoteBody_reads_table (w : World) (vnode : Vnode) (k : String) (rv : rvalue)
    (dta dtb : DTable) (tr : Trace) (h : dta.table = dtb.table) :
    (promoteBody w vnode k rv dta tr).map (fun r => (r.1.table, r.2))
      = (promoteBody w vnode k rv dtb tr).map (fun r => (r.1.table, r.2)) := by
  unfold promoteBody
  rw [h]
  split
  · simp [h]
  · split
    · simp [h]
    · split
      · rfl
      · split
        · dsimp only
          split
          · rfl
          · split
            · rfl
            · rfl
        · simp [h]

/-- A run of the loop of `promote` over entries of which those under `k` are
deeper than 0, against the run over the entries without those under `k`, from
states with the same primary tables: same panics, same primary tables, same
trace. -/
theorem promoteLoop_without (w : World) (vnode : Vnode) (k : String) :
    ∀ (es : List (String × rvalue)) (dta dtb : DTable) (tr : Trace),
      (∀ v, (k, v) ∈ es → v.depth ≠ 0) → dta.table = dtb.table →
      (rangeLoop (promoteBody w vnode) es dta tr).map (fun r => (r.1.table, r.2))
        = (rangeLoop (promoteBody w vnode) (es.filter fun e => decide (e.1 ≠ k)) dtb tr).map
            (fun r => (r.1.table, r.2)) := by
  intro es
  induction es with
  | nil =>
    intro dta dtb tr _ h
    simp [rangeLoop, h]
  | cons e0 rest ih =>
    obtain ⟨k0, v0⟩ := e0
    intro dta dtb tr hdeep h
    have hrest : ∀ v, (k, v) ∈ rest → v.depth ≠ 0 :=
      fun v hv => hdeep v (List.mem_cons_of_mem _ hv)
    by_cases hk : k0 = k
    · subst hk
      have hd : v0.depth ≠ 0 := hdeep v0 (List.mem_cons_self _ _)
      have hf : ((k0, v0) :: rest).filter (fun e => decide (e.1 ≠ k0))
          = rest.filter (fun e => decide (e.1 ≠ k0)) := by
        simp
      rw [hf]
      simp only [rangeLoop, promoteBody_skips w vnode k0 v0 hd]
      exact ih dta dtb tr hrest h
    · have hf : ((k0, v0) :: rest).filter (fun e => decide (e.1 ≠ k))
          = (k0, v0) :: rest.filter (fun e => decide (e.1 ≠ k)) := by
        simp [hk]
      rw [hf]
      have hbody := promoteBody_reads_table w vnode k0 v0 dta dtb tr h
      unfold rangeLoop
      cases ha : promoteBody w vnode k0 v0 dta tr with
      | none =>
        cases hb : promoteBody w vnode k0 v0 dtb tr with
        | none => rfl
        | some rb => rw [ha, hb] at hbody; simp at hbody
      | some ra =>
        cases hb : promoteBody w vnode k0 v0 dtb tr with
        | none => rw [ha, hb] at hbody; simp at hbody
        | some rb =>
          obtain ⟨dta1, tra1⟩ := ra
          obtain ⟨dtb1, trb1⟩ := rb
          rw [ha, hb] at hbody
          simp only [Option.map_some', Option.some.injEq, Prod.mk.injEq] at hbody
          obtain ⟨ht, htr⟩ := hbody
          subst htr
          exact ih dta1 dtb1 tra1 hrest ht

/-- The part of C2 that is needed again: a first replica whose successor is
the vnode is promoted. -/
theorem promote_promotes_key (w : World) (dt : DTable) (vnode : Vnode)
    (tr : Trace) (k : String) (rv : rvalue) (dt' : DTable) (tr' : Trace)
    (hk : getIn dt.rtable vnode.String k = some rv)
    (hd : rv.depth = 0)
    (hl : ∀ tr0, tr <+: tr0 →
        ∃ s rest, w.Lookup tr0 1 (w.KeyFromString k) = .ok (s :: rest) ∧ s.Id = vnode.Id)
    (h : promote w dt vnode tr = some (dt', tr')) :
    getIn dt'.table vnode.String k
        = some { Val := rv.Val, timestamp := rv.timestamp, isReplica := false,
                 commited := true, rstate := .replicaIncomplete, clean_key := [],
                 replicaVnodes := [] }
      ∧ getIn dt'.rtable vnode.String k = none := by
  obtain ⟨dt0, tr0, dt1, tr1, _, hp, hbody, hz, _⟩ :=
    rangeLoop_at_key (promoteBody_touches w vnode) (promoteBody_grows w vnode) k rv _
      dt tr dt' tr' (rangeOf_nodup _ _) ((mem_rangeOf _ _ _ _).mpr hk) h
  obtain ⟨s, rest, hs, hid⟩ := hl tr0 hp
  have := promoteBody_promotes w vnode k rv dt0 tr0 dt1 tr1 s rest hd hs hid hbody
  rw [(hz vnode.String).1, (hz vnode.String).2.1]
  exact this

/-- The part of C3 that is needed again: a first replica whose successor is
another vnode is dropped and the primary table is left alone. -/
theorem promote_deflects_key (w : World) (dt : DTable) (vnode : Vnode)
    (tr : Trace) (k : String) (rv : rvalue) (dt' : DTable) (tr' : Trace)
    (hk : getIn dt.rtable vnode.String k = some rv)
    (hd : rv.depth = 0)
    (hl : ∀ tr0, tr <+: tr0 →
        ∃ s rest, w.Lookup tr0 1 (w.KeyFromString k) = .ok (s :: rest) ∧ s.Id ≠ vnode.Id)
    (h : promote w dt vnode tr = some (dt', tr')) :
    getIn dt'.rtable vnode.String k = none
      ∧ getIn dt'.table vnode.String k = getIn dt.table vnode.String k := by
  obtain ⟨dt0, tr0, dt1, tr1, ha, hp, hbody, hz, _⟩ :=
    rangeLoop_at_key (promoteBody_touches w vnode) (promoteBody_grows w vnode) k rv _
      dt tr dt' tr' (rangeOf_nodup _ _) ((mem_rangeOf _ _ _ _).mpr hk) h
  obtain ⟨s, rest, hs, hid⟩ := hl tr0 hp
  have := promoteBody_deflects w vnode k rv dt0 tr0 dt1 tr1 s rest hd hs hid hbody
  rw [(hz vnode.String).1, (hz vnode.String).2.1, this.1, (ha vnode.String).1]
  exact ⟨this.2, rfl⟩

/-- The method `promote` returns when the vnode has a primary table and no
successful lookup has an empty answer. -/
theorem promote_total (w : World) (dt : DTable) (vnode : Vnode) (tr : Trace)
    (ht : (dt.table.lookup vnode.String).isSome)
    (hring : ∀ tr0 n key, w.Lookup tr0 n key ≠ .ok []) :
    ∃ dt' tr', promote w dt vnode tr = some (dt', tr') :=
  rangeLoop_total (fun d => (d.table.lookup vnode.String).isSome) _ dt tr ht
    (fun k v _ dt0 tr0 hinv => promoteBody_total w vnode hring k v dt0 tr0 hinv)

/-! ## Lemmas: the remote path of `demote` -/

theorem demoteRemoteBody_out_of_range (w : World) (vnode new_pred : Vnode) (k : String)
    (v : value) (dt : DTable) (tr : Trace)
    (hb : w.Between vnode.Id new_pred.Id (w.KeyFromString k) true = false) :
    demoteRemoteBody w vnode new_pred k v dt tr = some (dt, tr) := by
  simp [demoteRemoteBody, hb]

theorem demoteRemoteBody_events (w : World) (vnode new_pred : Vnode) (k : String) (v : value)
    (dt : DTable) (tr : Trace) (dt1 : DTable) (tr1 : Trace)
    (h : demoteRemoteBody w vnode new_pred k v dt tr = some (dt1, tr1)) :
    ∃ evs, tr1 = tr ++ evs
      ∧ ∀ e ∈ evs, w.Between vnode.Id new_pred.Id (w.KeyFromString k) true = true
          ∧ e = Event.remoteSet vnode new_pred (w.KeyFromString k) v w.Replicas true := by
  unfold demoteRemoteBody at h
  dsimp only at h
  split at h
  · rename_i hb
    split at h
    · exact absurd h (by simp)
    · have h' : tr ++ [Event.remoteSet vnode new_pred (w.KeyFromString k) v w.Replicas true]
          = tr1 := by
        split at h <;>
          · simp only [Option.some.injEq, Prod.mk.injEq] at h
            exact h.2
      exact ⟨[_], h'.symm, by simp [hb]⟩
  · simp only [Option.some.injEq, Prod.mk.injEq] at h
    exact ⟨[], by simp [h.2], by simp⟩

theorem demoteRemoteBody_rtable (w : World) (vnode new_pred : Vnode) (k : String) (v : value)
    (dt : DTable) (tr : Trace) (dt1 : DTable) (tr1 : Trace)
    (h : demoteRemoteBody w vnode new_pred k v dt tr = some (dt1, tr1)) :
    dt1.rtable = dt.rtable := by
  unfold demoteRemoteBody at h
  dsimp only at h
  split at h
  · split at h
    · exact absurd h (by simp)
    · split at h <;>
        · simp only [Option.some.injEq, Prod.mk.injEq] at h
          rw [← h.1]
  · simp only [Option.some.injEq, Prod.mk.injEq] at h
    rw [← h.1]

/-- The loop body of the remote path keeps its key, which the primary table
holds, in the primary table or in the demoted-item store. -/
theorem demoteRemoteBody_keys (w : World) (vnode new_pred : Vnode) (k : String) (v : value)
    (dt : DTable) (tr : Trace) (dt1 : DTable) (tr1 : Trace)
    (hk : getIn dt.table vnode.String k = some v)
    (h : demoteRemoteBody w vnode new_pred k v dt tr = some (dt1, tr1)) :
    (getIn dt1.table vnode.String k).isSome ∨ (getIn dt1.demoted_table vnode.String k).isSome := by
  by_cases hb : w.Between vnode.Id new_pred.Id (w.KeyFromString k) true = true
  · have := demoteRemoteBody_in_range w vnode new_pred k v dt tr dt1 tr1 hb h
    right
    rw [this.2]; rfl
  · have hb' : w.Between vnode.Id new_pred.Id (w.KeyFromString k) true = false := by
      simpa using hb
    rw [demoteRemoteBody_out_of_range w vnode new_pred k v dt tr hb'] at h
    simp only [Option.some.injEq, Prod.mk.injEq] at h
    left
    rw [← h.1, hk]; rfl

/-! ## Lemmas: the local path of `demote` -/

theorem chainCallsFrom_nil (key : List Byte) (rv : rvalue) (idx : Nat) :
    chainCallsFrom key rv idx [] = [] := rfl

theorem chainCallsFrom_cons_skip (key : List Byte) (rv : rvalue) (idx : Nat) (s : Vnode)
    (rest : List Vnode) (h : (idx : Int) = rv.depth) :
    chainCallsFrom key rv idx (s :: rest) = chainCallsFrom key rv (idx + 1) rest := by
  simp [chainCallsFrom, List.enumFrom_cons, List.filter_cons, h]

theorem chainCallsFrom_cons_push (key : List Byte) (rv : rvalue) (idx : Nat) (s : Vnode)
    (rest : List Vnode) (h : (idx : Int) ≠ rv.depth) :
    chainCallsFrom key rv idx (s :: rest)
      = ⟨s, key, (idx : Int), rv.master, rv.replicaVnodes⟩
          :: chainCallsFrom key rv (idx + 1) rest := by
  simp [chainCallsFrom, List.enumFrom_cons, List.filter_cons, h]

/-- The calls of the inner loop of the local path of `demote`: one
metadata-update RPC for each position of the chain other than the depth. -/
theorem pushMeta_calls (w : World) (rkey : String) (rval : rvalue) :
    ∀ (chain : List Vnode) (idx : Nat) (inSync : replicaState) (tr : Trace),
      ∃ evs, pushMeta w rkey rval chain idx inSync tr = tr ++ evs
        ∧ evs.map metaCallOf
            = (chainCallsFrom (w.KeyFromString rkey) rval idx chain).map some := by
  intro chain
  induction chain with
  | nil => intro idx inSync tr; exact ⟨[], by simp [pushMeta], by simp [chainCallsFrom_nil]⟩
  | cons s rest ih =>
    intro idx inSync tr
    unfold pushMeta
    split
    · rename_i hskip
      obtain ⟨evs, he, hm⟩ := ih (idx + 1) inSync tr
      exact ⟨evs, he, by rw [hm, chainCallsFrom_cons_skip _ _ _ _ _ hskip]⟩
    · rename_i hpush
      dsimp only
      split
      · obtain ⟨evs, he, hm⟩ := ih (idx + 1) .replicaIncomplete
          (tr ++ [Event.remoteSetMeta s (w.KeyFromString rkey)
            { Val := [], timestamp := 0, depth := idx, state := inSync, master := rval.master,
              replicaVnodes := rval.replicaVnodes }])
        refine ⟨Event.remoteSetMeta s (w.KeyFromString rkey)
            { Val := [], timestamp := 0, depth := idx, state := inSync, master := rval.master,
              replicaVnodes := rval.replicaVnodes } :: evs, by rw [he]; simp, ?_⟩
        rw [chainCallsFrom_cons_push _ _ _ _ _ hpush]
        simp [metaCallOf, hm]
      · obtain ⟨evs, he, hm⟩ := ih (idx + 1) inSync
          (tr ++ [Event.remoteSetMeta s (w.KeyFromString rkey)
            { Val := [], timestamp := 0, depth := idx, state := inSync, master := rval.master,
              replicaVnodes := rval.replicaVnodes }])
        refine ⟨Event.remoteSetMeta s (w.KeyFromString rkey)
            { Val := [], timestamp := 0, depth := idx, state := inSync, master := rval.master,
              replicaVnodes := rval.replicaVnodes } :: evs, by rw [he]; simp, ?_⟩
        rw [chainCallsFrom_cons_push _ _ _ _ _ hpush]
        simp [metaCallOf, hm]

theorem pushFailed_cons_zero (w : World) (tr : Trace) (t : Vnode) (key : List Byte)
    (r : rvalue) (evs : List Event) :
    pushFailed w tr (Event.remoteSetMeta t key r :: evs) 0
      = (w.remoteSetMeta tr t key r).isSome := by
  simp [pushFailed]

theorem pushFailed_cons_succ (w : World) (tr : Trace) (e : Event) (evs : List Event) (m : Nat) :
    pushFailed w tr (e :: evs) (m + 1) = pushFailed w (tr ++ [e]) evs m := by
  simp [pushFailed, List.append_assoc]

/-- The sync state that the calls of the inner loop carry: Incomplete when
the loop began with it or when an earlier call of the loop failed. -/
theorem pushMeta_states (w : World) (rkey : String) (rval : rvalue) :
    ∀ (chain : List Vnode) (idx : Nat) (inSync : replicaState) (tr : Trace) (evs : List Event),
      pushMeta w rkey rval chain idx inSync tr = tr ++ evs →
      ∀ (n : Nat) (t : Vnode) (key : List Byte) (r : rvalue),
        evs[n]? = some (Event.remoteSetMeta t key r) →
        (r.state = .replicaIncomplete ↔
          inSync = .replicaIncomplete ∨ ∃ m, m < n ∧ pushFailed w tr evs m = true) := by
  intro chain
  induction chain with
  | nil =>
    intro idx inSync tr evs h n t key r hn
    simp only [pushMeta] at h
    have : evs = [] := by simpa using h
    subst this
    simp at hn
  | cons s rest ih =>
    intro idx inSync tr evs h n t key r hn
    unfold pushMeta at h
    split at h
    · exact ih (idx + 1) inSync tr evs h n t key r hn
    · dsimp only at h
      obtain ⟨evs1, he1⟩ : ∃ evs1, evs = Event.remoteSetMeta s (w.KeyFromString rkey)
          { Val := [], timestamp := 0, depth := idx, state := inSync, master := rval.master,
            replicaVnodes := rval.replicaVnodes } :: evs1 := by
        split at h
        · obtain ⟨x, hx⟩ := pushMeta_extends w rkey rval rest (idx + 1) .replicaIncomplete
            (tr ++ [Event.remoteSetMeta s (w.KeyFromString rkey)
              { Val := [], timestamp := 0, depth := idx, state := inSync,
                master := rval.master, replicaVnodes := rval.replicaVnodes }])
          rw [← hx, List.append_assoc] at h
          exact ⟨x, (List.append_cancel_left h).symm⟩
        · obtain ⟨x, hx⟩ := pushMeta_extends w rkey rval rest (idx + 1) inSync
            (tr ++ [Event.remoteSetMeta s (w.KeyFromString rkey)
              { Val := [], timestamp := 0, depth := idx, state := inSync,
                master := rval.master, replicaVnodes := rval.replicaVnodes }])
          rw [← hx, List.append_assoc] at h
          exact ⟨x, (List.append_cancel_left h).symm⟩
      subst he1
      have hsplit : tr ++ Event.remoteSetMeta s (w.KeyFromString rkey)
          { Val := [], timestamp := 0, depth := idx, state := inSync, master := rval.master,
            replicaVnodes := rval.replicaVnodes } :: evs1
          = (tr ++ [Event.remoteSetMeta s (w.KeyFromString rkey)
              { Val := [], timestamp := 0, depth := idx, state := inSync,
                master := rval.master, replicaVnodes := rval.replicaVnodes }]) ++ evs1 := by
        simp
      rw [hsplit] at h
      cases n with
      | zero =>
        simp only [List.getElem?_cons_zero, Option.some.injEq, Event.remoteSetMeta.injEq] at hn
        obtain ⟨_, _, hr⟩ := hn
        subst hr
        simp
      | succ n =>
        have hn' : evs1[n]? = some (Event.remoteSetMeta t key r) := by simpa using hn
        cases hcall : w.remoteSetMeta tr s (w.KeyFromString rkey)
            { Val := [], timestamp := 0, depth := idx, state := inSync, master := rval.master,
              replicaVnodes := rval.replicaVnodes } with
        | some err =>
          simp only [hcall] at h
          have := ih (idx + 1) .replicaIncomplete _ evs1 h n t key r hn'
          rw [this]
          simp only [true_or, true_iff]
          right
          exact ⟨0, Nat.succ_pos n, by rw [pushFailed_cons_zero, hcall]; rfl⟩
        | none =>
          simp only [hcall] at h
          have := ih (idx + 1) inSync _ evs1 h n t key r hn'
          rw [this]
          constructor
          · rintro (h1 | ⟨m, hm, hf⟩)
            · exact Or.inl h1
            · exact Or.inr ⟨m + 1, Nat.succ_lt_succ hm, by rw [pushFailed_cons_succ]; exact hf⟩
          · rintro (h1 | ⟨m, hm, hf⟩)
            · exact Or.inl h1
            · cases m with
              | zero =>
                rw [pushFailed_cons_zero, hcall] at hf
                exact absurd hf (by simp)
              | succ m =>
                rw [pushFailed_cons_succ] at hf
                exact Or.inr ⟨m, Nat.lt_of_succ_lt_succ hm, hf⟩

/-- The calls of one pass of the loop body of the local path: those of the
inner loop over the rewritten chain, begun with the state Complete. -/
theorem demoteLocalBody_calls (w : World) (vnode new_pred : Vnode) (k : String) (rv : rvalue)
    (dt : DTable) (tr : Trace) (dt1 : DTable) (tr1 : Trace)
    (h : demoteLocalBody w vnode new_pred k rv dt tr = some (dt1, tr1)) :
    ∃ evs, tr1 = tr ++ evs
      ∧ evs.map metaCallOf = (chainCalls new_pred (w.KeyFromString k) rv).map some
      ∧ pushMeta w k { rv with replicaVnodes := rv.replicaVnodes.set rv.depth.toNat new_pred }
          (rv.replicaVnodes.set rv.depth.toNat new_pred) 0 .replicaComplete tr = tr ++ evs := by
  unfold demoteLocalBody at h
  split at h
  · exact absurd h (by simp)
  · rename_i rv' hchain
    unfold setChain at hchain
    split at hchain
    · simp only [Option.some.injEq] at hchain
      subst hchain
      split at h
      · exact absurd h (by simp)
      · simp only [Option.some.injEq, Prod.mk.injEq] at h
        obtain ⟨evs, he, hm⟩ := pushMeta_calls w k
          { rv with replicaVnodes := rv.replicaVnodes.set rv.depth.toNat new_pred }
          (rv.replicaVnodes.set rv.depth.toNat new_pred) 0 .replicaComplete tr
        exact ⟨evs, by rw [← h.2, he], hm, he⟩
    · exact absurd hchain (by simp)

/-- The local path of `demote` returns when `new_pred` has a replica store
and every entry has its depth inside its chain. -/
theorem demote_local_total (w : World) (dt : DTable) (vnode new_pred : Vnode) (tr : Trace)
    (hloc : ∃ lvn ∈ w.MyVnodes tr, lvn.Host = new_pred.Host)
    (ht : (dt.rtable.lookup new_pred.String).isSome)
    (hvalid : ∀ k0 rv0, getIn dt.rtable vnode.String k0 = some rv0 →
      0 ≤ rv0.depth ∧ rv0.depth.toNat < rv0.replicaVnodes.length) :
    ∃ dt' tr', demote w dt vnode new_pred tr = some (dt', tr') := by
  have hl := isLocal_eq_true w new_pred tr hloc
  simp only [demote, hl, if_true]
  exact rangeLoop_total (fun d => (d.rtable.lookup new_pred.String).isSome) _ dt tr ht
    (fun k v hm dt0 tr0 hinv =>
      demoteLocalBody_total w vnode new_pred k v dt0 tr0
        (hvalid k v ((mem_rangeOf _ _ _ _).mp hm)) hinv)

theorem mem_chainCallsFrom (key : List Byte) (rv : rvalue) (c : MetaCall) :
    ∀ (members : List Vnode) (idx : Nat), c ∈ chainCallsFrom key rv idx members →
      ∃ i, members[i]? = some c.target ∧ c.depth = ((idx + i : Nat) : Int)
        ∧ c.depth ≠ rv.depth ∧ c.key = key ∧ c.master = rv.master
        ∧ c.chain = rv.replicaVnodes := by
  intro members
  induction members with
  | nil => intro idx h; simp [chainCallsFrom_nil] at h
  | cons s rest ih =>
    intro idx h
    by_cases hd : (idx : Int) = rv.depth
    · rw [chainCallsFrom_cons_skip _ _ _ _ _ hd] at h
      obtain ⟨i, h1, h2, h3⟩ := ih (idx + 1) h
      exact ⟨i + 1, by simpa using h1, by rw [h2]; congr 1; omega, h3⟩
    · rw [chainCallsFrom_cons_push _ _ _ _ _ hd] at h
      rcases List.mem_cons.mp h with rfl | h
      · exact ⟨0, by simp, by simp, hd, rfl, rfl, rfl⟩
      · obtain ⟨i, h1, h2, h3⟩ := ih (idx + 1) h
        exact ⟨i + 1, by simpa using h1, by rw [h2]; congr 1; omega, h3⟩

theorem chainCallsFrom_depths (key : List Byte) (rv : rvalue) :
    ∀ (members : List Vnode) (idx : Nat),
      (chainCallsFrom key rv idx members).map (fun c => c.depth)
        = ((List.range' idx members.length).filter
            fun i => decide ((i : Int) ≠ rv.depth)).map fun i => (i : Int) := by
  intro members
  induction members with
  | nil => intro idx; simp [chainCallsFrom_nil]
  | cons s rest ih =>
    intro idx
    by_cases hd : (idx : Int) = rv.depth
    · rw [chainCallsFrom_cons_skip _ _ _ _ _ hd, ih (idx + 1)]
      simp [List.range'_succ, List.filter_cons, hd]
    · rw [chainCallsFrom_cons_push _ _ _ _ _ hd]
      simp [List.range'_succ, List.filter_cons, hd, ih (idx + 1)]

/-! ## The wire codec, both ways -/

/-- What `Decode` guarantees of the message it returns: the tag and the data
are those of the input, and the typed payload is of the type of the tag. -/
theorem Decode_ok (pb : PBDefs) (transport : ZMQTransport) (b : List Byte) (m : ChordMsg pb)
    (h : Decode pb transport b = .ok m) :
    b = m.Typ :: m.Data
      ∧ ((m.Typ = pbPing ∧ ∃ x, m.TransportMsg = some (.ping x))
        ∨ (m.Typ = pbErr ∧ ∃ x, m.TransportMsg = some (.err x))
        ∨ (m.Typ = pbJoin ∧ ∃ x, m.TransportMsg = some (.join x))
        ∨ (m.Typ = pbLeave ∧ ∃ x, m.TransportMsg = some (.leave x))
        ∨ (m.Typ = pbListVnodes ∧ ∃ x, m.TransportMsg = some (.listVnodes x))
        ∨ (m.Typ = pbListVnodesResp ∧ ∃ x, m.TransportMsg = some (.listVnodesResp x))) := by
  cases b with
  | nil => simp [Decode] at h
  | cons d0 tl =>
    have htl : (if (d0 :: tl).length > 1 then tl else []) = tl := by
      cases tl <;> simp
    unfold Decode at h
    simp only [htl] at h
    split_ifs at h with h1 h2 h3 h4 h5 h6
    · split at h
      · exact absurd h (by simp)
      · simp only [Except.ok.injEq] at h
        subst h
        exact ⟨rfl, Or.inl ⟨h1, _, rfl⟩⟩
    · split at h
      · exact absurd h (by simp)
      · simp only [Except.ok.injEq] at h
        subst h
        exact ⟨rfl, Or.inr (Or.inl ⟨h2, _, rfl⟩)⟩
    · split at h
      · exact absurd h (by simp)
      · simp only [Except.ok.injEq] at h
        subst h
        exact ⟨rfl, Or.inr (Or.inr (Or.inl ⟨h3, _, rfl⟩))⟩
    · split at h
      · exact absurd h (by simp)
      · simp only [Except.ok.injEq] at h
        subst h
        exact ⟨rfl, Or.inr (Or.inr (Or.inr (Or.inl ⟨h4, _, rfl⟩)))⟩
    · split at h
      · exact absurd h (by simp)
      · simp only [Except.ok.injEq] at h
        subst h
        exact ⟨rfl, Or.inr (Or.inr (Or.inr (Or.inr (Or.inl ⟨h5, _, rfl⟩))))⟩
    · split at h
      · exact absurd h (by simp)
      · simp only [Except.ok.injEq] at h
        subst h
        exact ⟨rfl, Or.inr (Or.inr (Or.inr (Or.inr (Or.inr ⟨h6, _, rfl⟩))))⟩

/-- C11. Decoding an unrecognized tag fails: for every protobuf layer, every
transport state and every non-empty byte sequence `d0 :: tl` whose first byte
`d0` is not one of the 8 enumerated message-type values, `Decode` returns no
message and the unknown-request-type error (which carries `d0`), whatever the
remaining bytes `tl` are. -/
theorem C11_decode_unknown_tag (pb : PBDefs) (transport : ZMQTransport) (d0 : Byte) (tl : List Byte)
    (h : d0 ∉ [pbPing, pbAck, pbErr, pbForward, pbJoin, pbLeave, pbListVnodes,
      pbListVnodesResp]) :
    Decode pb transport (d0 :: tl) = .error (.unknownRequestType d0) := by
  simp only [List.mem_cons, List.mem_singleton, not_or, List.not_mem_nil, not_false_eq_true,
    and_true] at h
  obtain ⟨h1, _, h3, _, h5, h6, h7, h8⟩ := h
  simp [Decode, h1, h3, h5, h6, h7, h8]

/-- An instance of C11: the byte 8 is no message type, and a sequence that
begins with it is refused. -/
theorem C11_decode_unknown_tag_witness :
    (8 : Byte) ∉ [pbPing, pbAck, pbErr, pbForward, pbJoin, pbLeave, pbListVnodes,
        pbListVnodesResp]
    ∧ Decode toyPB ⟨30⟩ [8, 1, 2] = .error (.unknownRequestType 8) :=
  ⟨by decide, C11_decode_unknown_tag toyPB ⟨30⟩ 8 [1, 2] (by decide)⟩

/-- C12. Wire envelope layout: for every message type `mt` and every payload
`data`, `Encode mt data` is a byte sequence of the length of `data` plus 1
whose byte 0 is the tag `mt` and whose remaining bytes are `data`, unmodified
and in order: without its first byte it is `data`, and its byte `i + 1` is
byte `i` of `data` for every `i`. -/
theorem C12_encode_layout (transport : ZMQTransport) (mt : MsgType) (data : List Byte) :
    (Encode transport mt data).length = data.length + 1
      ∧ (Encode transport mt data)[0]? = some mt
      ∧ (Encode transport mt data).drop 1 = data
      ∧ ∀ i, (Encode transport mt data)[i + 1]? = data[i]? := by
  simp [Encode]

/-- C20. Decode is inverted by Encode: for every byte sequence `b` on which
`Decode` succeeds with the message `m`, the first byte of `b` is `m.Typ`,
`m.Data` is `b` without its first byte (empty when `b` has length 1), and
`Encode m.Typ m.Data` is `b`. -/
theorem C20_decode_inverted_by_encode (pb : PBDefs) (transport : ZMQTransport) (b : List Byte) (m : ChordMsg pb)
    (h : Decode pb transport b = .ok m) :
    b.head? = some m.Typ ∧ m.Data = b.drop 1 ∧ (b.length = 1 → m.Data = [])
      ∧ Encode transport m.Typ m.Data = b := by
  obtain ⟨hb, _⟩ := Decode_ok pb transport b m h
  subst hb
  refine ⟨rfl, rfl, ?_, rfl⟩
  intro hl
  simpa using hl

/-- An instance of C20: the two bytes of a ping decode, and the message
encodes to them again. -/
theorem C20_decode_inverted_by_encode_witness :
    Decode toyPB ⟨30⟩ [0, 3] = .ok ⟨pbPing, [3], some (.ping (3 : Nat)), some ⟨⟨30⟩, .zmq_ping_handler⟩⟩
    ∧ Encode ⟨30⟩ pbPing [3] = [0, 3] :=
  ⟨rfl, (C20_decode_inverted_by_encode toyPB ⟨30⟩ [0, 3]
    ⟨pbPing, [3], some (.ping (3 : Nat)), some ⟨⟨30⟩, .zmq_ping_handler⟩⟩ rfl).2.2.2⟩

/-! ## The membership reactor and the list of vnodes -/

/-- C13. Membership reactor dispatch: `Delegate` returns the tables and the
trace it was given (no table is changed, no ring lookup and no RPC is issued)
when the transport has no handler for `localVn`, and also when the event is
neither PredecessorLeft nor PredecessorJoined; when the handler exists,
`Delegate` is `promote` of `localVn` for PredecessorLeft and `demote` of
`localVn` and `new_pred` for PredecessorJoined: the same tables, the same
calls, the same panics. -/
theorem C13_delegate_dispatch (w : World) (dt : DTable) (localVn new_pred : Vnode) (event : RingEventType)
    (tr : Trace) :
    ((w.GetVnodeHandler tr localVn).2 = false →
        Delegate w dt localVn new_pred event tr = some (dt, tr))
    ∧ (event ≠ .EvPredecessorLeft → event ≠ .EvPredecessorJoined →
        Delegate w dt localVn new_pred event tr = some (dt, tr))
    ∧ ((w.GetVnodeHandler tr localVn).2 = true →
        Delegate w dt localVn new_pred .EvPredecessorLeft tr = promote w dt localVn tr
        ∧ Delegate w dt localVn new_pred .EvPredecessorJoined tr
            = demote w dt localVn new_pred tr) := by
  refine ⟨?_, ?_, ?_⟩
  · intro h
    simp [Delegate, h]
  · intro h1 h2
    unfold Delegate
    split
    · rfl
    · cases event with
      | EvPredecessorJoined => exact absurd rfl h2
      | EvPredecessorLeft => exact absurd rfl h1
      | other c => rfl
  · intro h
    simp [Delegate, h]

/-- An instance of C13: the transport of the examples has no handler for
`vB` and has one for `vA`; without the handler, and on the event number 3,
nothing happens, and with it the two membership events are `promote` and
`demote`. -/
theorem C13_delegate_dispatch_witness :
    (calmWorld.GetVnodeHandler [] vB).2 = false
    ∧ Delegate calmWorld exDT vB vA .EvPredecessorLeft [] = some (exDT, [])
    ∧ Delegate calmWorld exDT vA vD (.other 3) [] = some (exDT, [])
    ∧ (calmWorld.GetVnodeHandler [] vA).2 = true
    ∧ Delegate calmWorld exDT vA vD .EvPredecessorLeft [] = promote calmWorld exDT vA []
    ∧ Delegate calmWorld exDT vA vD .EvPredecessorJoined [] = demote calmWorld exDT vA vD [] :=
  ⟨by decide,
   (C13_delegate_dispatch calmWorld exDT vB vA .EvPredecessorLeft []).1 (by decide),
   (C13_delegate_dispatch calmWorld exDT vA vD (.other 3) []).2.1 (by decide) (by decide),
   by decide,
   (C13_delegate_dispatch calmWorld exDT vA vD (.other 3) []).2.2 (by decide)⟩

/-- C14 (amended). ListVnodes response handling, when the socket is made and
connected. When the response is handled before the client timeout fires: for
a response that `Decode` accepts, if its type is Err the call yields the error
that carries the remote error string, and no vnodes; if its type is
ListVnodesResp the call yields, without error, the vnodes of the (id, host)
pairs of the response, as many and in the same order, vnode `i` with the id
and the host of pair `i`; for every other decoded type the call yields the
unexpected-response error. When the timeout fires first the call yields the
timed-out error and no vnodes, whatever the response is. -/
theorem C14_list_vnodes_response (pb : PBDefs) (transport : ZMQTransport) (env : ListVnodesEnv)
    (host : String)
    (hsock : env.NewSocket = none) (hconn : env.Connect ("tcp://" ++ host) = none) :
    (env.timeoutFirst = false →
      ∀ (resp : List Byte) (decoded : ChordMsg pb),
        env.RecvBytes (Encode transport pbListVnodes env.reqData) = .ok resp →
        Decode pb transport resp = .ok decoded →
        (decoded.Typ = pbErr →
            ∃ pbMsg, decoded.TransportMsg = some (.err pbMsg)
              ∧ ListVnodes pb transport env host
                  = some (.error (.remote (pb.GetError pbMsg))))
        ∧ (decoded.Typ = pbListVnodesResp →
            ∃ pbMsg, ∃ vnodes : List Vnode,
              decoded.TransportMsg = some (.listVnodesResp pbMsg)
              ∧ ListVnodes pb transport env host = some (.ok vnodes)
              ∧ vnodes.length = (pb.GetVnodes pbMsg).length
              ∧ ∀ (i : Nat) pbVnode, (pb.GetVnodes pbMsg)[i]? = some pbVnode →
                  vnodes[i]? = some ⟨pb.GetId pbVnode, pb.GetHost pbVnode⟩)
        ∧ (decoded.Typ ≠ pbErr → decoded.Typ ≠ pbListVnodesResp →
            ListVnodes pb transport env host = some (.error .unexpected)))
    ∧ (env.timeoutFirst = true →
        ListVnodes pb transport env host = some (.error .timedOut)) := by
  refine ⟨?_, fun htime => by simp [ListVnodes, hsock, hconn, htime]⟩
  intro htime resp decoded hrecv hdec
  have hrun : ListVnodes pb transport env host = listVnodesReply pb transport env := by
    simp [ListVnodes, hsock, hconn, htime]
  obtain ⟨_, hty⟩ := Decode_ok pb transport resp decoded hdec
  refine ⟨?_, ?_, ?_⟩
  · intro ht
    have hx : ∃ x, decoded.TransportMsg = some (.err x) := by
      rcases hty with h | h | h | h | h | h
      · exact absurd (h.1.symm.trans ht) (by decide)
      · exact h.2
      · exact absurd (h.1.symm.trans ht) (by decide)
      · exact absurd (h.1.symm.trans ht) (by decide)
      · exact absurd (h.1.symm.trans ht) (by decide)
      · exact absurd (h.1.symm.trans ht) (by decide)
    obtain ⟨x, hx⟩ := hx
    refine ⟨x, hx, ?_⟩
    rw [hrun]
    simp [listVnodesReply, hrecv, hdec, ht, hx]
  · intro ht
    have hx : ∃ x, decoded.TransportMsg = some (.listVnodesResp x) := by
      rcases hty with h | h | h | h | h | h
      · exact absurd (h.1.symm.trans ht) (by decide)
      · exact absurd (h.1.symm.trans ht) (by decide)
      · exact absurd (h.1.symm.trans ht) (by decide)
      · exact absurd (h.1.symm.trans ht) (by decide)
      · exact absurd (h.1.symm.trans ht) (by decide)
      · exact h.2
    obtain ⟨x, hx⟩ := hx
    refine ⟨x, (pb.GetVnodes x).map fun v => ⟨pb.GetId v, pb.GetHost v⟩, hx, ?_, ?_, ?_⟩
    · rw [hrun]
      have hne : pbListVnodesResp ≠ pbErr := by decide
      simp only [listVnodesReply, hrecv, hdec, ht, hx, hne, if_false, if_true]
    · simp
    · intro i v hv
      simp [List.getElem?_map, hv]
  · intro h1 h2
    rw [hrun]
    simp [listVnodesReply, hrecv, hdec, h1, h2]

/-- An instance of C14 (amended): a response of the two pairs (3, A) and
(4, B), handled in time, yields the two vnodes; an error response that comes
after the timer yields the timed-out error, not the remote error. -/
theorem C14_list_vnodes_response_witness :
    ListVnodes toyPB ⟨30⟩ (toyPeer [7, 3, 65, 4, 66] false) "hostB"
        = some (.ok [⟨[3], "A"⟩, ⟨[4], "B"⟩])
    ∧ (∃ pbMsg, ∃ vnodes : List Vnode,
        ListVnodes toyPB ⟨30⟩ (toyPeer [7, 3, 65, 4, 66] false) "hostB" = some (.ok vnodes)
        ∧ vnodes.length = (toyPB.GetVnodes pbMsg).length)
    ∧ ListVnodes toyPB ⟨30⟩ (toyPeer [2, 111, 104] true) "hostB"
        = some (.error .timedOut) :=
  ⟨rfl,
   let ⟨pbMsg, vnodes, _, h2, h3, _⟩ :=
    ((C14_list_vnodes_response toyPB ⟨30⟩ (toyPeer [7, 3, 65, 4, 66] false) "hostB"
      rfl rfl).1 rfl [7, 3, 65, 4, 66]
      ⟨pbListVnodesResp, [3, 65, 4, 66],
        some (.listVnodesResp [((3 : Byte), (65 : Byte)), ((4 : Byte), (66 : Byte))]), none⟩
      rfl rfl).2.1 rfl
   ⟨pbMsg, vnodes, h2, h3⟩,
   (C14_list_vnodes_response toyPB ⟨30⟩ (toyPeer [2, 111, 104] true) "hostB" rfl rfl).2 rfl⟩

/-- C14 as stated fails: the peer answers with a list-vnodes response of two
pairs, which `Decode` accepts, but the timer is the branch of the `select`
that fires, and the call yields the timed-out error instead of the two
vnodes. -/
theorem C14_counterexample :
    Decode toyPB ⟨30⟩ [7, 3, 65, 4, 66]
        = .ok ⟨pbListVnodesResp, [3, 65, 4, 66],
            some (.listVnodesResp [((3 : Byte), (65 : Byte)), ((4 : Byte), (66 : Byte))]), none⟩
    ∧ (toyPeer [7, 3, 65, 4, 66] true).RecvBytes
          (Encode ⟨30⟩ pbListVnodes (toyPeer [7, 3, 65, 4, 66] true).reqData)
        = .ok [7, 3, 65, 4, 66]
    ∧ ListVnodes toyPB ⟨30⟩ (toyPeer [7, 3, 65, 4, 66] true) "hostB"
        = some (.error .timedOut) :=
  ⟨rfl, rfl, rfl⟩

/-! ## Promotion: the entries that stay -/

/-- C15. Promote leaves deeper replicas untouched: for an entry `rv` that the
replica store of `vnode` holds under `k` with a depth other than 0: when
`promote` returns, the replica store still holds `rv` under `k`, every field
as it was, the primary table of `vnode` holds for `k` what it held before (so
`k` was not added to it), and the trace has only grown. No ring lookup or RPC
is issued for the entry: the loop body, run on it, returns the tables and the
trace it was given, and the whole run makes the calls, and leaves the primary
tables, of the run on the tables without the entry; and no call of the run
carries the key bytes of `k` when no depth-0 key of the store has the same
key bytes. And `promote` does return when `vnode` has a primary table and no
successful lookup has an empty answer. -/
theorem C15_promote_skips_deeper (w : World) (dt : DTable) (vnode : Vnode) (tr : Trace) (k : String)
    (rv : rvalue)
    (hk : getIn dt.rtable vnode.String k = some rv)
    (hd : rv.depth ≠ 0) :
    (∀ dt' tr', promote w dt vnode tr = some (dt', tr') →
        getIn dt'.rtable vnode.String k = some rv
          ∧ getIn dt'.table vnode.String k = getIn dt.table vnode.String k
          ∧ tr <+: tr'
          ∧ ((∀ k0 rv0, getIn dt.rtable vnode.String k0 = some rv0 → rv0.depth = 0 →
                w.KeyFromString k0 ≠ w.KeyFromString k) →
              ∀ e ∈ issued tr tr', eventKey e ≠ some (w.KeyFromString k)))
    ∧ (∀ dt0 tr0, promoteBody w vnode k rv dt0 tr0 = some (dt0, tr0))
    ∧ (promote w dt vnode tr).map (fun r => (r.1.table, r.2))
        = (promote w { dt with rtable := deleteIn dt.rtable vnode.String k } vnode tr).map
            (fun r => (r.1.table, r.2))
    ∧ ((dt.table.lookup vnode.String).isSome → (∀ tr0 n key, w.Lookup tr0 n key ≠ .ok []) →
        ∃ dt' tr', promote w dt vnode tr = some (dt', tr')) := by
  refine ⟨?_, fun dt0 tr0 => promoteBody_skips w vnode k rv hd dt0 tr0, ?_,
    promote_total w dt vnode tr⟩
  · intro dt' tr' h
    obtain ⟨dt0, tr0, dt1, tr1, ha, _, hbody, hz, _⟩ :=
      rangeLoop_at_key (promoteBody_touches w vnode) (promoteBody_grows w vnode) k rv _
        dt tr dt' tr' (rangeOf_nodup _ _) ((mem_rangeOf _ _ _ _).mpr hk) h
    rw [promoteBody_skips w vnode k rv hd dt0 tr0] at hbody
    simp only [Option.some.injEq, Prod.mk.injEq] at hbody
    obtain ⟨hdt, _⟩ := hbody
    subst hdt
    have hagree := ha.trans hz
    refine ⟨?_, (hagree vnode.String).1, rangeLoop_grows (promoteBody_grows w vnode) _ _ _ _ _ h,
      ?_⟩
    · rw [(hagree vnode.String).2.1]; exact hk
    · intro hfree e he
      obtain ⟨evs, htr, hall⟩ := rangeLoop_issued
        (fun k0 (rv0 : rvalue) e => rv0.depth = 0
          ∧ (eventKey e = none ∨ eventKey e = some (w.KeyFromString k0)))
        (promoteBody_events w vnode) _ dt tr dt' tr' h
      rw [htr, issued_append] at he
      obtain ⟨k0, rv0, hm, hd0, hkey⟩ := hall e he
      have hne := hfree k0 rv0 ((mem_rangeOf _ _ _ _).mp hm) hd0
      rcases hkey with hkey | hkey
      · rw [hkey]; simp
      · rw [hkey]
        intro heq
        exact hne (Option.some.inj heq)
  · unfold promote
    rw [rangeOf_deleteIn]
    apply promoteLoop_without
    · intro v hv
      have := (mem_rangeOf _ _ _ _).mp hv
      rw [hk] at this
      simp only [Option.some.injEq] at this
      subst this
      exact hd
    · rfl

/-- An instance of C15: in the example tables `vA` holds `c1` at depth 1;
`promote` returns, `c1` is still in the replica store, not in the primary
table, and no call carries its key. -/
theorem C15_promote_skips_deeper_witness :
    ∃ dt' tr', promote calmWorld exDT vA [] = some (dt', tr')
      ∧ getIn dt'.rtable vA.String "c1" = some exRval1
      ∧ getIn dt'.table vA.String "c1" = none
      ∧ ∀ e ∈ issued [] tr', eventKey e ≠ some (toyKey "c1") := by
  have h := C15_promote_skips_deeper calmWorld exDT vA [] "c1" exRval1 (by decide) (by decide)
  obtain ⟨dt', tr', hp⟩ := h.2.2.2 (by decide) (by
    intro tr0 n key
    simp only [calmWorld, toyWorld]
    split_ifs <;> simp)
  obtain ⟨h1, h2, _, h4⟩ := h.1 dt' tr' hp
  refine ⟨dt', tr', hp, h1, h2, h4 ?_⟩
  intro k0 rv0 hk0 hd0
  have hm := (mem_rangeOf exDT.rtable vA.String k0 rv0).mpr hk0
  have hall : ∀ e ∈ rangeOf exDT.rtable vA.String,
      e.2.depth = 0 → toyKey e.1 ≠ toyKey "c1" := by decide
  exact hall _ hm hd0

/-- C16. Promote skips keys whose ring lookup fails: for a key `k` that the
replica store of `vnode` holds at depth 0 and for which `Lookup(1, k)`, asked
at any point of the run, returns an error: when `promote` returns, the
replica store still holds the entry under `k`, unchanged, the primary table
holds for `k` what it held before (so `k` was not added to it), and the lookup
for `k` was made. Every other depth-0 key `k2` of the store is still
processed according to its own lookup result, whatever lookups failed: it is
promoted when its successor has the id of `vnode`, and dropped from the
replica store, the primary table left alone, when its successor has another
id. And `promote` does return when `vnode` has a primary table and no
successful lookup has an empty answer. -/
theorem C16_promote_lookup_failure (w : World) (dt : DTable) (vnode : Vnode) (tr : Trace) (k : String)
    (rv : rvalue)
    (hk : getIn dt.rtable vnode.String k = some rv)
    (hd : rv.depth = 0)
    (hl : ∀ tr0, tr <+: tr0 → ∃ err, w.Lookup tr0 1 (w.KeyFromString k) = .error err) :
    (∀ dt' tr', promote w dt vnode tr = some (dt', tr') →
        getIn dt'.rtable vnode.String k = some rv
          ∧ getIn dt'.table vnode.String k = getIn dt.table vnode.String k
          ∧ Event.Lookup 1 (w.KeyFromString k) ∈ issued tr tr'
          ∧ ∀ k2 rv2, getIn dt.rtable vnode.String k2 = some rv2 → rv2.depth = 0 →
              ((∀ tr0, tr <+: tr0 →
                  ∃ s rest, w.Lookup tr0 1 (w.KeyFromString k2) = .ok (s :: rest)
                    ∧ s.Id = vnode.Id) →
                getIn dt'.table vnode.String k2
                    = some { Val := rv2.Val, timestamp := rv2.timestamp, isReplica := false,
                             commited := true, rstate := .replicaIncomplete, clean_key := [],
                             replicaVnodes := [] }
                  ∧ getIn dt'.rtable vnode.String k2 = none)
              ∧ ((∀ tr0, tr <+: tr0 →
                  ∃ s rest, w.Lookup tr0 1 (w.KeyFromString k2) = .ok (s :: rest)
                    ∧ s.Id ≠ vnode.Id) →
                getIn dt'.rtable vnode.String k2 = none
                  ∧ getIn dt'.table vnode.String k2 = getIn dt.table vnode.String k2))
    ∧ ((dt.table.lookup vnode.String).isSome → (∀ tr0 n key, w.Lookup tr0 n key ≠ .ok []) →
        ∃ dt' tr', promote w dt vnode tr = some (dt', tr')) := by
  refine ⟨?_, promote_total w dt vnode tr⟩
  intro dt' tr' h
  obtain ⟨dt0, tr0, dt1, tr1, ha, hp, hbody, hz, hq⟩ :=
    rangeLoop_at_key (promoteBody_touches w vnode) (promoteBody_grows w vnode) k rv _
      dt tr dt' tr' (rangeOf_nodup _ _) ((mem_rangeOf _ _ _ _).mpr hk) h
  obtain ⟨err, herr⟩ := hl tr0 hp
  rw [promoteBody_lookup_fails w vnode k rv dt0 tr0 err hd herr] at hbody
  simp only [Option.some.injEq, Prod.mk.injEq] at hbody
  obtain ⟨hdt, htr1⟩ := hbody
  subst hdt
  have hagree := ha.trans hz
  refine ⟨?_, (hagree vnode.String).1, ?_, ?_⟩
  · rw [(hagree vnode.String).2.1]; exact hk
  · obtain ⟨a, ha'⟩ := hp
    obtain ⟨b, hb'⟩ := hq
    rw [← hb', ← htr1, ← ha', List.append_assoc, List.append_assoc, issued_append]
    simp
  · intro k2 rv2 hk2 hd2
    exact ⟨fun hl2 => promote_promotes_key w dt vnode tr k2 rv2 dt' tr' hk2 hd2 hl2 h,
      fun hl2 => promote_deflects_key w dt vnode tr k2 rv2 dt' tr' hk2 hd2 hl2 h⟩

/-- An instance of C16: `vA` holds first replicas of `x1`, whose lookup
fails, and of `a1`, whose successor is `vA`; `promote` returns, `x1` is still
a replica and `a1` has been promoted. -/
theorem C16_promote_lookup_failure_witness :
    ∃ dt' tr', promote calmWorld exDT2 vA [] = some (dt', tr')
      ∧ getIn dt'.rtable vA.String "x1" = some exRval
      ∧ getIn dt'.table vA.String "x1" = none
      ∧ getIn dt'.table vA.String "a1"
          = some { Val := [9], timestamp := 41, isReplica := false, commited := true,
                   rstate := .replicaIncomplete, clean_key := [], replicaVnodes := [] }
      ∧ getIn dt'.rtable vA.String "a1" = none := by
  have h := C16_promote_lookup_failure calmWorld exDT2 vA [] "x1" exRval (by decide) (by decide)
    (fun _ _ => ⟨"lookup failed", rfl⟩)
  obtain ⟨dt', tr', hp⟩ := h.2 (by decide) (by
    intro tr0 n key
    simp only [calmWorld, toyWorld]
    split_ifs <;> simp)
  obtain ⟨h1, h2, _, h4⟩ := h.1 dt' tr' hp
  exact ⟨dt', tr', hp, h1, h2,
    (h4 "a1" exRval (by decide) (by decide)).1 (fun _ _ => ⟨vA, [], rfl, rfl⟩)⟩

/-! ## Demotion: the calls and the frame -/

/-- C17. Local-path demote pushes the corrected chain to every other chain
member: when some local vnode has the host of `new_pred` and `demote`
returns, the calls of the run are metadata-update RPCs only, and they are,
entry after entry in the order of the pass, the calls `chainCalls` of each
entry of the replica store of `vnode`; for each entry, of depth `d`, the
depth is not negative, the rewritten chain `c` has `new_pred` at `d`, and the
calls of the entry stand together in the trace. The calls of an entry are one
for every index `i` of `c` other than `d`, in index order, and none for `d`;
the call for `i` goes to `c[i]` and carries the key, the depth `i`, the master
of the entry and the chain `c`. And `demote` does return when `new_pred` has a
replica store and every entry has its depth inside its chain. -/
theorem C17_demote_pushes_chain (w : World) (dt : DTable) (vnode new_pred : Vnode) (tr : Trace)
    (hloc : ∃ lvn ∈ w.MyVnodes tr, lvn.Host = new_pred.Host) :
    (∀ dt' tr', demote w dt vnode new_pred tr = some (dt', tr') →
        tr <+: tr'
        ∧ (issued tr tr').map metaCallOf
            = ((rangeOf dt.rtable vnode.String).flatMap fun e =>
                chainCalls new_pred (w.KeyFromString e.1) e.2).map some
        ∧ ∀ k rv, getIn dt.rtable vnode.String k = some rv →
            (0 ≤ rv.depth
              ∧ (rv.replicaVnodes.set rv.depth.toNat new_pred)[rv.depth.toNat]? = some new_pred)
            ∧ ∃ before after, (issued tr tr').map metaCallOf
                = before ++ (chainCalls new_pred (w.KeyFromString k) rv).map some ++ after)
    ∧ (∀ key rv,
        (chainCalls new_pred key rv).map (fun c => c.depth)
            = ((List.range rv.replicaVnodes.length).filter
                fun i => decide ((i : Int) ≠ rv.depth)).map (fun i => (i : Int))
        ∧ ∀ c ∈ chainCalls new_pred key rv,
            c.depth ≠ rv.depth ∧ 0 ≤ c.depth
              ∧ (rv.replicaVnodes.set rv.depth.toNat new_pred)[c.depth.toNat]? = some c.target
              ∧ c.key = key ∧ c.master = rv.master
              ∧ c.chain = rv.replicaVnodes.set rv.depth.toNat new_pred)
    ∧ ((dt.rtable.lookup new_pred.String).isSome →
        (∀ k0 rv0, getIn dt.rtable vnode.String k0 = some rv0 →
          0 ≤ rv0.depth ∧ rv0.depth.toNat < rv0.replicaVnodes.length) →
        ∃ dt' tr', demote w dt vnode new_pred tr = some (dt', tr')) := by
  have hl := isLocal_eq_true w new_pred tr hloc
  refine ⟨?_, ?_, demote_local_total w dt vnode new_pred tr hloc⟩
  · intro dt' tr' h
    simp only [demote, hl, if_true] at h
    have hgrow := demoteLocalBody_grows w vnode new_pred
    obtain ⟨evs, htr, hmap⟩ := rangeLoop_issued_map metaCallOf
      (fun k rv => (chainCalls new_pred (w.KeyFromString k) rv).map some)
      (fun k v d t d1 t1 hb =>
        let ⟨evs, h1, h2, _⟩ := demoteLocalBody_calls w vnode new_pred k v d t d1 t1 hb
        ⟨evs, h1, h2⟩)
      _ dt tr dt' tr' h
    have hall : (issued tr tr').map metaCallOf
        = ((rangeOf dt.rtable vnode.String).flatMap fun e =>
            chainCalls new_pred (w.KeyFromString e.1) e.2).map some := by
      rw [htr, issued_append, hmap, List.map_flatMap]
    refine ⟨rangeLoop_grows hgrow _ _ _ _ _ h, hall, ?_⟩
    intro k rv hk
    have hmem := (mem_rangeOf _ _ _ _).mpr hk
    constructor
    · obtain ⟨dt0, tr0, dt1, tr1, _, _, hbody, _, _⟩ :=
        rangeLoop_at_key (demoteLocalBody_touches w vnode new_pred) hgrow k rv _ dt tr dt' tr'
          (rangeOf_nodup _ _) hmem h
      unfold demoteLocalBody at hbody
      split at hbody
      · exact absurd hbody (by simp)
      · rename_i rv' hchain
        unfold setChain at hchain
        split at hchain
        · rename_i hvalid
          exact ⟨hvalid.1, by simp [List.getElem?_set, hvalid.2]⟩
        · exact absurd hchain (by simp)
    · obtain ⟨l1, l2, hsplit⟩ := List.append_of_mem hmem
      rw [hall, hsplit]
      refine ⟨(l1.flatMap fun e => chainCalls new_pred (w.KeyFromString e.1) e.2).map some,
        (l2.flatMap fun e => chainCalls new_pred (w.KeyFromString e.1) e.2).map some, ?_⟩
      simp [List.flatMap_append, List.flatMap_cons]
  · intro key rv
    constructor
    · have := chainCallsFrom_depths key
        { rv with replicaVnodes := rv.replicaVnodes.set rv.depth.toNat new_pred }
        (rv.replicaVnodes.set rv.depth.toNat new_pred) 0
      simpa [chainCalls, List.range_eq_range'] using this
    · intro c hc
      obtain ⟨i, h1, h2, h3, h4, h5, h6⟩ := mem_chainCallsFrom key
        { rv with replicaVnodes := rv.replicaVnodes.set rv.depth.toNat new_pred } c
        (rv.replicaVnodes.set rv.depth.toNat new_pred) 0 hc
      refine ⟨h3, by rw [h2]; omega, ?_, h4, h5, h6⟩
      rw [h2]
      simpa using h1

/-- An instance of C17: the local vnode `vA2` becomes the predecessor of
`vA`, which holds `a1` and `b1` at depth 0 of the chain (`vA`, `vC`) and `c1`
at depth 1 of the chain (`vB`, `vA`); the run issues one metadata update per
entry, to the other member of its chain, with `vA2` in the chain. -/
theorem C17_demote_pushes_chain_witness :
    ∃ dt' tr', demote calmWorld exDT vA vA2 [] = some (dt', tr')
      ∧ (issued [] tr').map metaCallOf
          = [some ⟨vC, toyKey "a1", 1, vD, [vA2, vC]⟩, some ⟨vC, toyKey "b1", 1, vD, [vA2, vC]⟩,
             some ⟨vB, toyKey "c1", 0, vD, [vB, vA2]⟩] := by
  have h := C17_demote_pushes_chain calmWorld exDT vA vA2 [] ⟨vA, by decide, by decide⟩
  obtain ⟨dt', tr', hp⟩ := h.2.2 (by decide) (by
    intro k0 rv0 hk0
    have hm := (mem_rangeOf exDT.rtable vA.String k0 rv0).mpr hk0
    have hall : ∀ e ∈ rangeOf exDT.rtable vA.String,
        0 ≤ e.2.depth ∧ e.2.depth.toNat < e.2.replicaVnodes.length := by decide
    exact hall _ hm)
  exact ⟨dt', tr', hp, (h.1 dt' tr' hp).2.1.trans (by decide)⟩

/-- C18 (amended). Local-path demote and RPC failure: when some local vnode
has the host of `new_pred`, whose id string is not that of `vnode`, for an
entry `rv` that the replica store of `vnode` holds under `k`: when `demote`
returns, the entry that the replica store of `new_pred` holds under `k`
records the sync state that `rv` had before, whatever the metadata-update RPCs
answered. A failure shows in the RPCs only: the metadata-update RPCs issued
for the entry are the calls `chainCalls` of it, and one of them carries the
state Incomplete exactly when an earlier one of them failed. And `demote` does
return when `new_pred` has a replica store and every entry has its depth
inside its chain. -/
theorem C18_demote_keeps_state (w : World) (dt : DTable) (vnode new_pred : Vnode) (tr : Trace) (k : String)
    (rv : rvalue)
    (hloc : ∃ lvn ∈ w.MyVnodes tr, lvn.Host = new_pred.Host)
    (hne : vnode.String ≠ new_pred.String)
    (hk : getIn dt.rtable vnode.String k = some rv) :
    (∀ dt' tr', demote w dt vnode new_pred tr = some (dt', tr') →
        (∃ rv', getIn dt'.rtable new_pred.String k = some rv' ∧ rv'.state = rv.state)
        ∧ ∃ tr0 evs, tr <+: tr0 ∧ (tr0 ++ evs) <+: tr'
            ∧ evs.map metaCallOf = (chainCalls new_pred (w.KeyFromString k) rv).map some
            ∧ ∀ (n : Nat) (t : Vnode) (key : List Byte) (r : rvalue),
                evs[n]? = some (Event.remoteSetMeta t key r) →
                (r.state = .replicaIncomplete ↔ ∃ m, m < n ∧ pushFailed w tr0 evs m = true))
    ∧ ((dt.rtable.lookup new_pred.String).isSome →
        (∀ k0 rv0, getIn dt.rtable vnode.String k0 = some rv0 →
          0 ≤ rv0.depth ∧ rv0.depth.toNat < rv0.replicaVnodes.length) →
        ∃ dt' tr', demote w dt vnode new_pred tr = some (dt', tr')) := by
  have hl := isLocal_eq_true w new_pred tr hloc
  refine ⟨?_, demote_local_total w dt vnode new_pred tr hloc⟩
  intro dt' tr' h
  simp only [demote, hl, if_true] at h
  obtain ⟨dt0, tr0, dt1, tr1, _, hp, hbody, hz, hq⟩ :=
    rangeLoop_at_key (demoteLocalBody_touches w vnode new_pred)
      (demoteLocalBody_grows w vnode new_pred) k rv _ dt tr dt' tr'
      (rangeOf_nodup _ _) ((mem_rangeOf _ _ _ _).mpr hk) h
  obtain ⟨h1, _, _, _⟩ := demoteLocalBody_moves w vnode new_pred k rv dt0 tr0 dt1 tr1 hne hbody
  obtain ⟨evs, htr1, hcalls, hpush⟩ :=
    demoteLocalBody_calls w vnode new_pred k rv dt0 tr0 dt1 tr1 hbody
  refine ⟨⟨{ rv with replicaVnodes := rv.replicaVnodes.set rv.depth.toNat new_pred },
    by rw [(hz new_pred.String).2.1]; exact h1, rfl⟩, tr0, evs, hp,
    by rw [← htr1]; exact hq, hcalls, ?_⟩
  intro n t key r hn
  have := pushMeta_states w k _ _ 0 .replicaComplete tr0 evs hpush n t key r hn
  rw [this]
  simp

/-- An instance of C18 (amended): every metadata update fails, `demote`
returns, and the entry of `a3` in the store of `vA2` still records the state
Complete. -/
theorem C18_demote_keeps_state_witness :
    ∃ dt' tr', demote deafWorld exDT3 vA vA2 [] = some (dt', tr')
      ∧ ∃ rv', getIn dt'.rtable vA2.String "a3" = some rv' ∧ rv'.state = .replicaComplete := by
  have h := C18_demote_keeps_state deafWorld exDT3 vA vA2 [] "a3" exRval3
    ⟨vA, by decide, by decide⟩ (by decide) (by decide)
  obtain ⟨dt', tr', hp⟩ := h.2 (by decide) (by
    intro k0 rv0 hk0
    have hm := (mem_rangeOf exDT3.rtable vA.String k0 rv0).mpr hk0
    have hall : ∀ e ∈ rangeOf exDT3.rtable vA.String,
        0 ≤ e.2.depth ∧ e.2.depth.toNat < e.2.replicaVnodes.length := by decide
    exact hall _ hm)
  exact ⟨dt', tr', hp, (h.1 dt' tr' hp).1⟩

/-- C18 as stated fails: `vA2` is hosted on the local node and every
metadata update fails; `demote(vA, vA2)` issues two metadata updates for `a3`
(the second one carries the state Incomplete), both fail, and the entry of
`a3` in the replica store of `vA2` records the state Complete. -/
theorem C18_counterexample :
    (∃ lvn ∈ deafWorld.MyVnodes [], lvn.Host = vA2.Host)
    ∧ getIn exDT3.rtable vA.String "a3" = some exRval3
    ∧ (∀ tr t key r, (deafWorld.remoteSetMeta tr t key r).isSome)
    ∧ (demote deafWorld exDT3 vA vA2 []).map
          (fun r => (r.2, (getIn r.1.rtable vA2.String "a3").map fun e => e.state))
        = some ([Event.remoteSetMeta vB (toyKey "a3")
                  { Val := [], timestamp := 0, depth := 1, state := .replicaComplete,
                    master := vD, replicaVnodes := [vA2, vB, vC] },
                 Event.remoteSetMeta vC (toyKey "a3")
                  { Val := [], timestamp := 0, depth := 2, state := .replicaIncomplete,
                    master := vD, replicaVnodes := [vA2, vB, vC] }],
                some .replicaComplete) :=
  ⟨⟨vA, by decide, rfl⟩, by decide, fun _ _ _ _ => rfl, by decide⟩

/-- C19. Remote-path demote touches only in-range primary keys: when no local
vnode has the host of `new_pred`, for a key `K` that the primary table of
`vnode` holds with the value `val` and for which `Between(vnode.Id,
new_pred.Id, K, inclusive)` is false: when `demote` returns, the primary table
still holds `val` under `K`, the demoted-item store holds for `K` what it held
before (so `K` was not added to it), the trace has only grown, every call of
the run is the remote set of an in-range key of the primary table, and so none
carries the key of `K`; moreover the replica stores are unchanged, and a key
is in the primary table or in the demoted-item store of `vnode` after the run
exactly when it was in one of them before. And `demote` does return when
`vnode` has a demoted-item store. -/
theorem C19_demote_remote_frame (w : World) (dt : DTable) (vnode new_pred : Vnode) (tr : Trace) (K : String)
    (val : value)
    (hrem : ∀ lvn ∈ w.MyVnodes tr, lvn.Host ≠ new_pred.Host)
    (hk : getIn dt.table vnode.String K = some val)
    (hb : w.Between vnode.Id new_pred.Id (w.KeyFromString K) true = false) :
    (∀ dt' tr', demote w dt vnode new_pred tr = some (dt', tr') →
        getIn dt'.table vnode.String K = some val
          ∧ getIn dt'.demoted_table vnode.String K = getIn dt.demoted_table vnode.String K
          ∧ tr <+: tr'
          ∧ (∀ e ∈ issued tr tr',
              ∃ k0 v0, getIn dt.table vnode.String k0 = some v0
                ∧ w.Between vnode.Id new_pred.Id (w.KeyFromString k0) true = true
                ∧ e = Event.remoteSet vnode new_pred (w.KeyFromString k0) v0 w.Replicas true)
          ∧ (∀ e ∈ issued tr tr', eventKey e ≠ some (w.KeyFromString K))
          ∧ dt'.rtable = dt.rtable
          ∧ ∀ k, ((getIn dt'.table vnode.String k).isSome
                    ∨ (getIn dt'.demoted_table vnode.String k).isSome)
                ↔ ((getIn dt.table vnode.String k).isSome
                    ∨ (getIn dt.demoted_table vnode.String k).isSome))
    ∧ ((dt.demoted_table.lookup vnode.String).isSome →
        ∃ dt' tr', demote w dt vnode new_pred tr = some (dt', tr')) := by
  have hloc := isLocal_eq_false w new_pred tr hrem
  constructor
  · intro dt' tr' h
    simp only [demote, hloc] at h
    have htouch := demoteRemoteBody_touches w vnode new_pred
    have hgrow := demoteRemoteBody_grows w vnode new_pred
    obtain ⟨dt0, tr0, dt1, tr1, ha, _, hbody, hz, _⟩ :=
      rangeLoop_at_key htouch hgrow K val _ dt tr dt' tr'
        (rangeOf_nodup _ _) ((mem_rangeOf _ _ _ _).mpr hk) h
    rw [demoteRemoteBody_out_of_range w vnode new_pred K val dt0 tr0 hb] at hbody
    simp only [Option.some.injEq, Prod.mk.injEq] at hbody
    obtain ⟨hdt, _⟩ := hbody
    subst hdt
    have hagree := ha.trans hz
    obtain ⟨evs, htr, hall⟩ := rangeLoop_issued
      (fun k0 (v0 : value) e => w.Between vnode.Id new_pred.Id (w.KeyFromString k0) true = true
        ∧ e = Event.remoteSet vnode new_pred (w.KeyFromString k0) v0 w.Replicas true)
      (demoteRemoteBody_events w vnode new_pred) _ dt tr dt' tr' h
    have hev : ∀ e ∈ issued tr tr',
        ∃ k0 v0, getIn dt.table vnode.String k0 = some v0
          ∧ w.Between vnode.Id new_pred.Id (w.KeyFromString k0) true = true
          ∧ e = Event.remoteSet vnode new_pred (w.KeyFromString k0) v0 w.Replicas true := by
      intro e he
      rw [htr, issued_append] at he
      obtain ⟨k0, v0, hm, hb0, he0⟩ := hall e he
      exact ⟨k0, v0, (mem_rangeOf _ _ _ _).mp hm, hb0, he0⟩
    refine ⟨?_, (hagree vnode.String).2.2, rangeLoop_grows hgrow _ _ _ _ _ h, hev, ?_, ?_, ?_⟩
    · rw [(hagree vnode.String).1]; exact hk
    · intro e he
      obtain ⟨k0, v0, _, hb0, he0⟩ := hev e he
      rw [he0]
      simp only [eventKey, ne_eq, Option.some.injEq]
      intro heq
      rw [heq, hb] at hb0
      exact absurd hb0 (by simp)
    · exact rangeLoop_invariant (fun d => d.rtable = dt.rtable)
        (fun k v d t d1 t1 hb1 hR =>
          (demoteRemoteBody_rtable w vnode new_pred k v d t d1 t1 hb1).trans hR)
        _ dt tr dt' tr' h rfl
    · intro k
      cases hkk : getIn dt.table vnode.String k with
      | none =>
        have hfr := rangeLoop_frame htouch k _ dt tr dt' tr'
          (not_mem_keys_rangeOf _ _ _ hkk) h
        rw [(hfr vnode.String).1, (hfr vnode.String).2.2, hkk]
      | some v =>
        obtain ⟨d0, t0, d1, t1, ha1, _, hbody1, hz1, _⟩ :=
          rangeLoop_at_key htouch hgrow k v _ dt tr dt' tr'
            (rangeOf_nodup _ _) ((mem_rangeOf _ _ _ _).mpr hkk) h
        have hk0 : getIn d0.table vnode.String k = some v := by
          rw [(ha1 vnode.String).1]; exact hkk
        have := demoteRemoteBody_keys w vnode new_pred k v d0 t0 d1 t1 hk0 hbody1
        rw [(hz1 vnode.String).1, (hz1 vnode.String).2.2]
        simp only [Option.isSome_some, true_or, iff_true]
        exact this
  · intro ht
    simp only [demote, hloc]
    exact rangeLoop_total (fun d => (d.demoted_table.lookup vnode.String).isSome) _ dt tr ht
      (fun k v _ dt0 tr0 hinv => demoteRemoteBody_total w vnode new_pred k v dt0 tr0 hinv)

/-- An instance of C19: `vD` is remote and the key `z9` of `vA` is out of
the range; `demote` returns, `z9` is still a primary of `vA` with its value,
it is not in the demoted-item store, no call carries its key, and the replica
stores are as they were. -/
theorem C19_demote_remote_frame_witness :
    ∃ dt' tr', demote calmWorld exDT vA vD [] = some (dt', tr')
      ∧ getIn dt'.table vA.String "z9" = some exVal
      ∧ getIn dt'.demoted_table vA.String "z9" = none
      ∧ (∀ e ∈ issued [] tr', eventKey e ≠ some (toyKey "z9"))
      ∧ dt'.rtable = exDT.rtable := by
  have h := C19_demote_remote_frame calmWorld exDT vA vD [] "z9" exVal (by decide) (by decide)
    (by decide)
  obtain ⟨dt', tr', hp⟩ := h.2 (by decide)
  obtain ⟨h1, h2, _, _, h5, h6, _⟩ := h.1 dt' tr' hp
  exact ⟨dt', tr', hp, h1, h2, h5, h6⟩

end Dendrite
